import Mathlib

set_option maxHeartbeats 1600000

/-!
Shallow embedding of `src/freq_enc.py` and verification of its specification.

The encoder works on whitespace-separated tokens; a token is modelled as a
`List Char`, a text as a `String`.  Python dictionary lookups, which can in
principle raise `KeyError`, are modelled with `Option`; the pipeline's
exception handling is modelled with an explicit error type.
-/

abbrev Tok := List Char

/-- The whitespace test used by Python `str.split()` with no arguments,
over the ASCII range (space, `\t`, `\n`, `\v`, `\f`, `\r` and the
separator control characters `\x1c`–`\x1f`).  Non-ASCII Unicode space
characters are outside the model; no claim involves them. -/
def pyIsSpace (c : Char) : Bool :=
  c.toNat == 32 || (9 ≤ c.toNat && c.toNat ≤ 13) || (28 ≤ c.toNat && c.toNat ≤ 31)

/-- Helper for `pySplit`: `acc` holds the characters of the token currently
being scanned, in reverse order. -/
def pySplitAux : List Char → List Char → List (List Char)
  | [], acc => if acc.isEmpty then [] else [acc.reverse]
  | c :: cs, acc =>
    if pyIsSpace c then
      (if acc.isEmpty then pySplitAux cs [] else acc.reverse :: pySplitAux cs [])
    else pySplitAux cs (c :: acc)

/-- `text.split()` (line 16 of the source): split on runs of whitespace,
discarding empty fragments. -/
def pySplit (s : List Char) : List (List Char) := pySplitAux s []

/-- `sep.join(parts)` for lists of characters. -/
def joinSep (sep : List Char) : List (List Char) → List Char
  | [] => []
  | [x] => x
  | x :: y :: xs => x ++ sep ++ joinSep sep (y :: xs)

/-- Python `enumerate`, starting from a given index. -/
def enumFrom {α : Type*} : Nat → List α → List (Nat × α)
  | _, [] => []
  | i, a :: as => (i, a) :: enumFrom (i + 1) as

/-- Python `enumerate(l)`. -/
def enumerate {α : Type*} (l : List α) : List (Nat × α) := enumFrom 0 l

/-- Number of occurrences of `t` in a list (the count recorded by
`collections.Counter`). -/
def countTok {α : Type*} [DecidableEq α] (t : α) : List α → Nat
  | [] => 0
  | u :: l => (if u = t then 1 else 0) + countTok t l

/-- Index of the first occurrence of `t` in a list (`l.length` if absent). -/
def firstIdx {α : Type*} [DecidableEq α] (t : α) : List α → Nat
  | [] => 0
  | u :: l => if u = t then 0 else firstIdx t l + 1

/-- Positional lookup in a list. -/
def getAt? {α : Type*} : List α → Nat → Option α
  | [], _ => none
  | a :: _, 0 => some a
  | _ :: l, n + 1 => getAt? l n

/-- Helper for `distinctFirst`: drop elements already seen. -/
def dedupFirst {α : Type*} [DecidableEq α] : List α → List α → List α
  | _, [] => []
  | seen, t :: rest =>
    if t ∈ seen then dedupFirst seen rest else t :: dedupFirst (t :: seen) rest

/-- The distinct elements of a list in first-occurrence order — the key
order of `collections.Counter(tokens)` (Python dicts preserve insertion
order). -/
def distinctFirst {α : Type*} [DecidableEq α] (l : List α) : List α := dedupFirst [] l

/-- Map a fallible function over a list, failing if any element fails
(models a Python comprehension whose body may raise). -/
def mapO {α β : Type*} (h : α → Option β) : List α → Option (List β)
  | [] => some []
  | a :: l => (h a).bind fun b => (mapO h l).map fun bs => b :: bs

/-- The decimal digit characters. -/
def digitChar : Nat → Char
  | 0 => '0' | 1 => '1' | 2 => '2' | 3 => '3' | 4 => '4'
  | 5 => '5' | 6 => '6' | 7 => '7' | 8 => '8' | _ => '9'

/-- Fuelled decimal rendering of a natural number. -/
def natToTokAux : Nat → Nat → List Char
  | 0, _ => []
  | fuel + 1, n =>
    if n < 10 then [digitChar n] else natToTokAux fuel (n / 10) ++ [digitChar (n % 10)]

/-- Python `str(n)` for a non-negative integer `n`. -/
def natToTok (n : Nat) : Tok := natToTokAux (n + 1) n

/-- Numeric value of a digit character. -/
def digitVal (c : Char) : Nat := c.toNat - 48

/-- Parse a decimal digit string back to a number (left inverse of
`natToTok`, used to establish injectivity). -/
def tokToNat (l : Tok) : Nat := l.foldl (fun acc c => acc * 10 + digitVal c) 0

/-- Lexicographic `≤` on strings by code point (Python `str` comparison). -/
def strLe : List Char → List Char → Bool
  | [], _ => true
  | _ :: _, [] => false
  | c :: cs, d :: ds => if c.toNat = d.toNat then strLe cs ds else decide (c.toNat < d.toNat)

/-- Lexicographic `≤` on `(−count, first-occurrence)` pairs (Python tuple
comparison restricted to the first two components). -/
def keyLe (a b : Int × Nat) : Bool :=
  if a.1 = b.1 then decide (a.2 ≤ b.2) else decide (a.1 < b.1)

/-- Python `≤` on the `(−count, first-occurrence, token)` triples that
`char_rank_data.sort()` compares. -/
def tripleLe (a b : Int × Nat × Tok) : Bool :=
  if a.1 = b.1 then
    (if a.2.1 = b.2.1 then strLe a.2.2 b.2.2 else decide (a.2.1 < b.2.1))
  else decide (a.1 < b.1)

/-- The two-key comparison alone: the token in third position is ignored. -/
def tripleLe2 (a b : Int × Nat × Tok) : Bool := keyLe (a.1, a.2.1) (b.1, b.2.1)

/-- Insert into a sorted list, before the first element not below `a`. -/
def orderedInsert {α : Type*} (le : α → α → Bool) (a : α) : List α → List α
  | [] => [a]
  | b :: l => if le a b then a :: b :: l else b :: orderedInsert le a l

/-- Insertion sort, modelling Python `list.sort()`.  Both are stable sorts,
so they agree on every list; for the comparisons used here the keys are
pairwise distinct, so the sorted permutation is in fact unique. -/
def pySort {α : Type*} (le : α → α → Bool) : List α → List α
  | [] => []
  | a :: l => orderedInsert le a (pySort le l)

/-! ## The source function `freq_enc` (src/freq_enc.py lines 7–37) -/

/-- `counts = Counter(tokens)` (line 20): each distinct token, in
first-occurrence order, with its total count. -/
def counts (tokens : List Tok) : List (Tok × Nat) :=
  (distinctFirst tokens).map fun t => (t, countTok t tokens)

/-- The dict comprehension of lines 22–25:
`{token: i for i, token in enumerate(tokens) if token not in tokens[:i]}`. -/
def first_occurrence_order (tokens : List Tok) : List (Tok × Nat) :=
  ((enumerate tokens).filter fun p => !((tokens.take p.1).contains p.2)).map
    fun p => (p.2, p.1)

/-- `char_rank_data` (lines 27–29): the triple
`(-freq, first_occurrence_order[token], token)` for each Counter item;
`none` models a `KeyError` on the dict subscript. -/
def char_rank_data (tokens : List Tok) : Option (List (Int × Nat × Tok)) :=
  mapO
    (fun p => ((first_occurrence_order tokens).lookup p.1).map
      fun fo => (-(p.2 : Int), fo, p.1))
    (counts tokens)

/-- `char_to_rank_id` (lines 31–34): sort `char_rank_data` and map each
token to its enumerate position. -/
def char_to_rank_id (tokens : List Tok) : Option (List (Tok × Nat)) :=
  (char_rank_data tokens).map fun data =>
    (enumerate (pySort tripleLe data)).map fun p => (p.2.2.2, p.1)

/-- `freq_enc` (lines 7–37).  `none` models an uncaught `KeyError`;
the function is in fact total (claim C7). -/
def freq_enc (text : String) : Option String :=
  let tokens := pySplit text.data
  if tokens.isEmpty then some "" else
  (char_to_rank_id tokens).bind fun table =>
    (mapO (fun t => (table.lookup t).map natToTok) tokens).map fun encoded_list =>
      String.mk (joinSep [' '] encoded_list)

/-- The sequence of numeric rank ids underlying `freq_enc`'s output
(line 36 before `str(...)` is applied). -/
def encoded_ranks (text : String) : Option (List Nat) :=
  let tokens := pySplit text.data
  (char_to_rank_id tokens).bind fun table => mapO (fun t => table.lookup t) tokens

/-! ## The reference algorithm of the specification (§4.1)

These definitions follow the spec's words, to be compared with `freq_enc`:
count and first-occurrence index per distinct token, sort distinct tokens
ascending by the two-component key `(−count, first-occurrence index)`,
rank = 0-based position in that order, replace every token by its rank. -/

/-- Spec §4.1 step 4: the sort key of a distinct token. -/
def tokKey (tokens : List Tok) (t : Tok) : Int × Nat :=
  (-(countTok t tokens : Int), firstIdx t tokens)

/-- Spec §4.1 step 4: comparison of distinct tokens by their keys. -/
def specLe (tokens : List Tok) (t u : Tok) : Bool :=
  keyLe (tokKey tokens t) (tokKey tokens u)

/-- Spec §4.1 step 4: the distinct tokens sorted ascending by key. -/
def rankedTokens (tokens : List Tok) : List Tok :=
  pySort (specLe tokens) (distinctFirst tokens)

/-- Spec §4.1 step 5: rank = 0-based position in the sorted order. -/
def rankOf (tokens : List Tok) (t : Tok) : Nat := firstIdx t (rankedTokens tokens)

/-- Spec §4.1: the reference encoder `encode`. -/
def encode_spec (text : String) : String :=
  let tokens := pySplit text.data
  if tokens.isEmpty then "" else
  String.mk (joinSep [' '] (tokens.map fun t => natToTok (rankOf tokens t)))

example : freq_enc "150 273 150 14 273 150" = some "0 1 0 2 1 0" := by decide
example : encode_spec "150 273 150 14 273 150" = "0 1 0 2 1 0" := by decide
example : freq_enc "9 8 9 8" = some "0 1 0 1" := by decide
example : freq_enc "" = some "" := by decide
example : freq_enc "   " = some "" := by decide
example : freq_enc "5 5 5" = some "0 0 0" := by decide
example : freq_enc "1 2 3" = some "0 1 2" := by decide

/-! ## The aggregation pipeline `write_aggregated_files` (lines 84–113)

A record's file is abstracted to its parse outcome: `none` when `json.load`
raises `JSONDecodeError`, `some v` when it parses to the JSON value `v`.
Only the operations the loop body performs on that value are modelled. -/

/-- A parsed JSON value.  For an object, `json.load` keeps only the last
binding of a duplicated key, so the field list has pairwise distinct keys
and its order is the dict's insertion order. -/
inductive JValue where
  | obj (fields : List (String × JValue))
  | str (s : String)
  | arr (elems : List JValue)
  | num (n : Int)
  | bool (b : Bool)
  | null

/-- A record file, abstracted to its parse outcome. -/
abbrev FileContent := Option JValue

/-- The Python exceptions the loop body can raise. -/
inductive PyError where
  | jsonDecodeError
  | keyError
  | typeError
  | attributeError
deriving DecidableEq

/-- `data[key]` for a string key: a missing key raises `KeyError`, and
subscripting a non-dict with a string key raises `TypeError`. -/
def getItem (v : JValue) (key : String) : Except PyError JValue :=
  match v with
  | .obj fields =>
    match fields.lookup key with
    | some x => Except.ok x
    | none => Except.error PyError.keyError
  | _ => Except.error PyError.typeError

/-- `ciphertext` must be a string for `freq_enc(ciphertext)` to run:
`.split()` on any other value raises `AttributeError`. -/
def asPyStr : JValue → Except PyError String
  | .str s => Except.ok s
  | _ => Except.error PyError.attributeError

/-- `" ".join(list(plaintext))` (line 107): a string yields its characters
space-separated; a list joins its elements if all are strings; a dict
iterates over its (string) keys; any other value raises `TypeError`. -/
def spacedPlain (v : JValue) : Except PyError String :=
  match v with
  | .str s => Except.ok (String.mk (joinSep [' '] (s.data.map fun c => [c])))
  | .arr elems =>
    (mapO (fun e => match e with | .str t => some t.data | _ => none) elems).elim
      (Except.error PyError.typeError)
      (fun parts => Except.ok (String.mk (joinSep [' '] parts)))
  | .obj fields => Except.ok (String.mk (joinSep [' '] (fields.map fun p => p.1.data)))
  | _ => Except.error PyError.typeError

/-- The lines one loop iteration (lines 97–108) writes to each output file,
and the exception it raises, if any. -/
structure RecordEffect where
  srcW : List String
  tgtW : List String
  err : Option PyError
deriving DecidableEq

/-- The body of one iteration of the `for file_path in file_list` loop,
before the `except` clauses are consulted. -/
def processRecord (content : FileContent) : RecordEffect :=
  match content with
  | none => ⟨[], [], some PyError.jsonDecodeError⟩
  | some data =>
    match getItem data "ciphertext" with
    | .error e => ⟨[], [], some e⟩
    | .ok cval =>
      match getItem data "plaintext" with
      | .error e => ⟨[], [], some e⟩
      | .ok pval =>
        match asPyStr cval with
        | .error e => ⟨[], [], some e⟩
        | .ok ctext =>
          match freq_enc ctext with
          | none => ⟨[], [], some PyError.keyError⟩
          | some freqEncoding =>
            match spacedPlain pval with
            | .error e => ⟨[freqEncoding], [], some e⟩
            | .ok sp => ⟨[freqEncoding], [sp], none⟩

/-- The exception classes named by the `except` clauses (lines 110–113). -/
def caughtErr : PyError → Bool
  | PyError.jsonDecodeError => true
  | PyError.keyError => true
  | _ => false

/-- The observable outcome of `write_aggregated_files`: the lines in each
output file, the warnings printed, and the exception that escaped the
function, if any. -/
structure WAFResult where
  srcLines : List String
  tgtLines : List String
  warnings : List PyError
  aborted : Option PyError
deriving DecidableEq

/-- `write_aggregated_files` (lines 84–113), abstracted over the two open
output files.  A caught exception prints a warning and continues; any other
exception escapes, leaving the lines already written and the remaining
records unprocessed. -/
def write_aggregated_files : List FileContent → WAFResult
  | [] => ⟨[], [], [], none⟩
  | f :: rest =>
    let eff := processRecord f
    match eff.err with
    | none =>
      let r := write_aggregated_files rest
      ⟨eff.srcW ++ r.srcLines, eff.tgtW ++ r.tgtLines, r.warnings, r.aborted⟩
    | some e =>
      if caughtErr e then
        let r := write_aggregated_files rest
        ⟨eff.srcW ++ r.srcLines, eff.tgtW ++ r.tgtLines, e :: r.warnings, r.aborted⟩
      else
        ⟨eff.srcW, eff.tgtW, [], some e⟩

/-- A record of one of the two kinds claim C9 describes: unparseable, or a
parsed object missing the `ciphertext` or `plaintext` field. -/
def BadKind (f : FileContent) : Prop :=
  f = none ∨ ∃ fields, f = some (JValue.obj fields) ∧
    (fields.lookup "ciphertext" = none ∨ fields.lookup "plaintext" = none)

/-- A record whose failure modes, if any, fall in the caught classes: its
file is unparseable, or parses to an object whose `ciphertext` and
`plaintext` fields, when present, are strings. -/
def Benign (f : FileContent) : Prop :=
  f = none ∨ ∃ fields, f = some (JValue.obj fields) ∧
    (∀ v, fields.lookup "ciphertext" = some v → ∃ s, v = JValue.str s) ∧
    (∀ v, fields.lookup "plaintext" = some v → ∃ s, v = JValue.str s)

example :
    (write_aggregated_files
      [some (JValue.arr []),
       some (JValue.obj [("ciphertext", JValue.str "a b a"), ("plaintext", JValue.str "xy")])]).aborted
      = some PyError.typeError := by decide

example :
    (write_aggregated_files
      [some (JValue.arr []),
       some (JValue.obj [("ciphertext", JValue.str "a b a"), ("plaintext", JValue.str "xy")])]).srcLines
      = [] := by decide

example :
    (write_aggregated_files
      [some (JValue.obj [("ciphertext", JValue.str "a b a"), ("plaintext", JValue.str "xy")])]).srcLines
      = ["0 1 0"] := by decide

example :
    (write_aggregated_files
      [some (JValue.obj [("ciphertext", JValue.str "a b a"), ("plaintext", JValue.str "xy")])]).tgtLines
      = ["x y"] := by decide

/-! ## Sorting machinery -/

theorem orderedInsert_perm {α : Type*} (le : α → α → Bool) (a : α) (l : List α) :
    (orderedInsert le a l).Perm (a :: l) := by
  induction l with
  | nil => exact List.Perm.refl _
  | cons b t ih =>
    by_cases h : le a b
    · simp [orderedInsert, h]
    · simp only [orderedInsert, h, if_neg, Bool.false_eq_true, not_false_iff, ite_false]
      exact (ih.cons b).trans (List.Perm.swap a b t)

theorem pySort_perm {α : Type*} (le : α → α → Bool) (l : List α) :
    (pySort le l).Perm l := by
  induction l with
  | nil => exact List.Perm.refl _
  | cons a t ih => exact (orderedInsert_perm le a (pySort le t)).trans (ih.cons a)

theorem mem_orderedInsert {α : Type*} {le : α → α → Bool} {a x : α} {l : List α} :
    x ∈ orderedInsert le a l ↔ x = a ∨ x ∈ l := by
  rw [(orderedInsert_perm le a l).mem_iff, List.mem_cons]

theorem mem_pySort {α : Type*} {le : α → α → Bool} {x : α} {l : List α} :
    x ∈ pySort le l ↔ x ∈ l := (pySort_perm le l).mem_iff

theorem orderedInsert_pairwise {α : Type*} {le : α → α → Bool}
    (total : ∀ a b, le a b = true ∨ le b a = true)
    (trans : ∀ a b c, le a b = true → le b c = true → le a c = true)
    (a : α) {l : List α} (h : l.Pairwise fun x y => le x y = true) :
    (orderedInsert le a l).Pairwise fun x y => le x y = true := by
  induction l with
  | nil => simp [orderedInsert]
  | cons b t ih =>
    rcases List.pairwise_cons.mp h with ⟨hb, ht⟩
    by_cases hab : le a b
    · simp only [orderedInsert, hab, ite_true]
      refine List.pairwise_cons.mpr ⟨?_, h⟩
      intro x hx
      rcases List.mem_cons.mp hx with rfl | hx
      · exact hab
      · exact trans a b x hab (hb x hx)
    · simp only [orderedInsert, hab, Bool.false_eq_true, not_false_iff, ite_false]
      refine List.pairwise_cons.mpr ⟨?_, ih ht⟩
      intro x hx
      rcases mem_orderedInsert.mp hx with rfl | hx
      · rcases total x b with h' | h'
        · exact absurd h' hab
        · exact h'
      · exact hb x hx

theorem pySort_pairwise {α : Type*} {le : α → α → Bool}
    (total : ∀ a b, le a b = true ∨ le b a = true)
    (trans : ∀ a b c, le a b = true → le b c = true → le a c = true)
    (l : List α) : (pySort le l).Pairwise fun x y => le x y = true := by
  induction l with
  | nil => simp [pySort]
  | cons a t ih => exact orderedInsert_pairwise total trans a ih

/-- Two sorted permutations of each other are equal, provided the sorting
relation is antisymmetric on the members involved. -/
theorem eq_of_perm_pairwise {α : Type*} {r : α → α → Prop} :
    ∀ {l₁ l₂ : List α}, l₁.Perm l₂ → l₁.Pairwise r → l₂.Pairwise r →
      (∀ a ∈ l₁, ∀ b ∈ l₁, r a b → r b a → a = b) → l₁ = l₂ := by
  intro l₁
  induction l₁ with
  | nil =>
    intro l₂ hp _ _ _
    exact (hp.nil_eq).symm ▸ rfl
  | cons a t ih =>
    intro l₂ hp h₁ h₂ anti
    cases l₂ with
    | nil => exact absurd hp.symm.nil_eq (by simp)
    | cons b t₂ =>
      have ha2 : a ∈ b :: t₂ := hp.mem_iff.mp (List.mem_cons_self a t)
      have hb1 : b ∈ a :: t := hp.mem_iff.mpr (List.mem_cons_self b t₂)
      have hab : a = b := by
        rcases List.mem_cons.mp ha2 with h | h
        · exact h
        rcases List.mem_cons.mp hb1 with h' | h'
        · exact h'.symm
        have r1 : r a b := (List.pairwise_cons.mp h₁).1 b h'
        have r2 : r b a := (List.pairwise_cons.mp h₂).1 a h
        exact anti a (List.mem_cons_self a t) b (List.mem_cons_of_mem a h') r1 r2
      subst hab
      have htp : t.Perm t₂ := hp.cons_inv
      have : t = t₂ := by
        refine ih htp (List.pairwise_cons.mp h₁).2 (List.pairwise_cons.mp h₂).2 ?_
        intro x hx y hy
        exact anti x (List.mem_cons_of_mem a hx) y (List.mem_cons_of_mem a hy)
      rw [this]

/-! ## Totality and transitivity of the comparators -/

theorem strLe_total : ∀ a b : List Char, strLe a b = true ∨ strLe b a = true := by
  intro a
  induction a with
  | nil => intro b; left; rfl
  | cons c cs ih =>
    intro b
    cases b with
    | nil => right; rfl
    | cons d ds =>
      by_cases h : c.toNat = d.toNat
      · simp only [strLe]
        rw [if_pos h, if_pos h.symm]
        exact ih ds
      · have h' : ¬d.toNat = c.toNat := fun hh => h hh.symm
        simp only [strLe, h, h', ite_false, decide_eq_true_eq]
        omega

theorem strLe_trans :
    ∀ a b c : List Char, strLe a b = true → strLe b c = true → strLe a c = true := by
  intro a
  induction a with
  | nil => intro b c _ _; rfl
  | cons x xs ih =>
    intro b c hab hbc
    cases b with
    | nil => simp [strLe] at hab
    | cons y ys =>
      cases c with
      | nil => simp [strLe] at hbc
      | cons z zs =>
        by_cases hxy : x.toNat = y.toNat <;> by_cases hyz : y.toNat = z.toNat
        · have hxz : x.toNat = z.toNat := hxy.trans hyz
          simp only [strLe, hxy, hyz, hxz, ite_true] at hab hbc ⊢
          exact ih ys zs hab hbc
        · have hxz : ¬x.toNat = z.toNat := fun hh => hyz (hxy ▸ hh)
          simp only [strLe, hxy, hyz, hxz, ite_true, ite_false, decide_eq_true_eq]
            at hab hbc ⊢
          omega
        · have hxz : ¬x.toNat = z.toNat := fun hh => hxy (hh.trans hyz.symm)
          simp only [strLe, hxy, hyz, hxz, ite_true, ite_false, decide_eq_true_eq]
            at hab hbc ⊢
          omega
        · simp only [strLe, hxy, hyz, ite_false, decide_eq_true_eq] at hab hbc
          have hxz : ¬x.toNat = z.toNat := by omega
          simp only [strLe, hxz, ite_false, decide_eq_true_eq]
          omega

theorem keyLe_total : ∀ a b : Int × Nat, keyLe a b = true ∨ keyLe b a = true := by
  rintro ⟨a1, a2⟩ ⟨b1, b2⟩
  by_cases h : a1 = b1
  · subst h
    simp only [keyLe, ite_true, decide_eq_true_eq]
    omega
  · have h' : ¬b1 = a1 := fun hh => h hh.symm
    simp only [keyLe, h, h', ite_false, decide_eq_true_eq]
    omega

theorem keyLe_trans :
    ∀ a b c : Int × Nat, keyLe a b = true → keyLe b c = true → keyLe a c = true := by
  rintro ⟨a1, a2⟩ ⟨b1, b2⟩ ⟨c1, c2⟩ hab hbc
  simp only [keyLe] at hab hbc ⊢
  by_cases h1 : a1 = b1
  · subst h1
    simp only [ite_true, decide_eq_true_eq] at hab
    by_cases h2 : a1 = c1
    · subst h2
      simp only [ite_true, decide_eq_true_eq] at hbc ⊢
      omega
    · simp only [h2, ite_false, decide_eq_true_eq] at hbc ⊢
      exact hbc
  · simp only [h1, ite_false, decide_eq_true_eq] at hab
    by_cases h2 : b1 = c1
    · subst h2
      simp only [h1, ite_false, decide_eq_true_eq]
      exact hab
    · simp only [h2, ite_false, decide_eq_true_eq] at hbc
      have h3 : ¬a1 = c1 := by omega
      simp only [h3, ite_false, decide_eq_true_eq]
      omega

/-- `keyLe` both ways forces equal keys. -/
theorem keyLe_antisymm {a b : Int × Nat} (h1 : keyLe a b = true) (h2 : keyLe b a = true) :
    a = b := by
  obtain ⟨a1, a2⟩ := a
  obtain ⟨b1, b2⟩ := b
  by_cases h : a1 = b1
  · subst h
    simp only [keyLe, ite_true, decide_eq_true_eq] at h1 h2
    simp only [Prod.mk.injEq, true_and]
    omega
  · have h' : ¬b1 = a1 := fun hh => h hh.symm
    simp only [keyLe, h, h', ite_false, decide_eq_true_eq] at h1 h2
    omega

theorem tripleLe_total :
    ∀ a b : Int × Nat × Tok, tripleLe a b = true ∨ tripleLe b a = true := by
  rintro ⟨a1, a2, a3⟩ ⟨b1, b2, b3⟩
  by_cases h1 : a1 = b1
  · subst h1
    by_cases h2 : a2 = b2
    · subst h2
      simpa only [tripleLe, ite_true] using strLe_total a3 b3
    · have h2' : ¬b2 = a2 := fun hh => h2 hh.symm
      simp only [tripleLe, h2, h2', ite_true, ite_false, decide_eq_true_eq]
      omega
  · have h1' : ¬b1 = a1 := fun hh => h1 hh.symm
    simp only [tripleLe, h1, h1', ite_false, decide_eq_true_eq]
    omega

theorem tripleLe_trans :
    ∀ a b c : Int × Nat × Tok,
      tripleLe a b = true → tripleLe b c = true → tripleLe a c = true := by
  rintro ⟨a1, a2, a3⟩ ⟨b1, b2, b3⟩ ⟨c1, c2, c3⟩ hab hbc
  simp only [tripleLe] at hab hbc ⊢
  by_cases h1 : a1 = b1
  · subst h1
    by_cases h2 : a1 = c1
    · subst h2
      simp only [ite_true] at hab hbc ⊢
      by_cases h4 : a2 = b2
      · subst h4
        by_cases h5 : a2 = c2
        · subst h5
          simp only [ite_true] at hab hbc ⊢
          exact strLe_trans _ _ _ hab hbc
        · simp only [h5, ite_true, ite_false, decide_eq_true_eq] at hab hbc ⊢
          omega
      · simp only [h4, ite_true, ite_false, decide_eq_true_eq] at hab
        by_cases h5 : b2 = c2
        · subst h5
          simp only [h4, ite_false, decide_eq_true_eq]
          omega
        · simp only [h5, ite_false, decide_eq_true_eq] at hbc
          have h6 : ¬a2 = c2 := by omega
          simp only [h6, ite_false, decide_eq_true_eq]
          omega
    · simp only [ite_true] at hab
      simp only [h2, ite_false, decide_eq_true_eq] at hbc ⊢
      exact hbc
  · simp only [h1, ite_false, decide_eq_true_eq] at hab
    by_cases h2 : b1 = c1
    · subst h2
      have h3 : ¬a1 = b1 := h1
      simp only [h3, ite_false, decide_eq_true_eq]
      exact hab
    · simp only [h2, ite_false, decide_eq_true_eq] at hbc
      have h3 : ¬a1 = c1 := by omega
      simp only [h3, ite_false, decide_eq_true_eq]
      omega

/-! ## Positional and searching lemmas -/

theorem getAt?_isSome {α : Type*} :
    ∀ (l : List α) (i : Nat), (getAt? l i).isSome = true ↔ i < l.length := by
  intro l
  induction l with
  | nil => intro i; simp [getAt?]
  | cons a t ih =>
    intro i
    cases i with
    | zero => simp [getAt?]
    | succ n => simpa [getAt?, Nat.succ_lt_succ_iff] using ih n

theorem getAt?_mem {α : Type*} :
    ∀ {l : List α} {i : Nat} {a : α}, getAt? l i = some a → a ∈ l := by
  intro l
  induction l with
  | nil => intro i a h; simp [getAt?] at h
  | cons b t ih =>
    intro i a h
    cases i with
    | zero =>
      simp only [getAt?, Option.some.injEq] at h
      exact h ▸ List.mem_cons_self b t
    | succ n => exact List.mem_cons_of_mem b (ih h)

theorem mem_iff_getAt? {α : Type*} {l : List α} {a : α} :
    a ∈ l ↔ ∃ i, getAt? l i = some a := by
  constructor
  · intro h
    induction l with
    | nil => simp at h
    | cons b t ih =>
      rcases List.mem_cons.mp h with rfl | h'
      · exact ⟨0, rfl⟩
      · obtain ⟨i, hi⟩ := ih h'
        exact ⟨i + 1, hi⟩
  · rintro ⟨i, hi⟩
    exact getAt?_mem hi

theorem getAt?_map {α β : Type*} (f : α → β) :
    ∀ (l : List α) (i : Nat), getAt? (l.map f) i = (getAt? l i).map f := by
  intro l
  induction l with
  | nil => intro i; simp [getAt?]
  | cons a t ih =>
    intro i
    cases i with
    | zero => rfl
    | succ n => simpa [getAt?] using ih n

theorem mem_take_iff {α : Type*} :
    ∀ (l : List α) (n : Nat) (a : α),
      a ∈ l.take n ↔ ∃ i, i < n ∧ getAt? l i = some a := by
  intro l
  induction l with
  | nil => intro n a; simp [getAt?]
  | cons b t ih =>
    intro n a
    cases n with
    | zero => simp
    | succ m =>
      simp only [List.take_succ_cons, List.mem_cons]
      constructor
      · rintro (rfl | h)
        · exact ⟨0, Nat.succ_pos m, rfl⟩
        · obtain ⟨i, hi, hg⟩ := (ih m a).mp h
          exact ⟨i + 1, Nat.succ_lt_succ hi, hg⟩
      · rintro ⟨i, hi, hg⟩
        cases i with
        | zero =>
          left
          simpa [getAt?] using hg.symm
        | succ j =>
          right
          exact (ih m a).mpr ⟨j, Nat.lt_of_succ_lt_succ hi, hg⟩

theorem pairwise_getAt? {α : Type*} {r : α → α → Prop} :
    ∀ {l : List α}, l.Pairwise r → ∀ {i j : Nat} {a b : α},
      i < j → getAt? l i = some a → getAt? l j = some b → r a b := by
  intro l
  induction l with
  | nil => intro _ i j a b _ h; simp [getAt?] at h
  | cons x t ih =>
    intro hp i j a b hij ha hb
    rcases List.pairwise_cons.mp hp with ⟨hx, ht⟩
    cases i with
    | zero =>
      simp only [getAt?, Option.some.injEq] at ha
      cases j with
      | zero => omega
      | succ m => exact ha ▸ hx b (getAt?_mem hb)
    | succ n =>
      cases j with
      | zero => omega
      | succ m => exact ih ht (Nat.lt_of_succ_lt_succ hij) ha hb

theorem nodup_not_mem_take {α : Type*} {l : List α} {i : Nat} {t : α}
    (hd : l.Nodup) (hg : getAt? l i = some t) : t ∉ l.take i := by
  intro hmem
  obtain ⟨j, hj, hgj⟩ := (mem_take_iff l i t).mp hmem
  exact pairwise_getAt? hd hj hgj hg rfl

/-! ## firstIdx and countTok -/

theorem firstIdx_lt_length {α : Type*} [DecidableEq α] {t : α} :
    ∀ {l : List α}, t ∈ l → firstIdx t l < l.length := by
  intro l
  induction l with
  | nil => intro h; simp at h
  | cons u r ih =>
    intro h
    by_cases hu : u = t
    · simp [firstIdx, hu]
    · rcases List.mem_cons.mp h with rfl | h'
      · exact absurd rfl hu
      · simpa [firstIdx, hu, Nat.succ_lt_succ_iff] using ih h'

theorem getAt?_firstIdx {α : Type*} [DecidableEq α] {t : α} :
    ∀ {l : List α}, t ∈ l → getAt? l (firstIdx t l) = some t := by
  intro l
  induction l with
  | nil => intro h; simp at h
  | cons u r ih =>
    intro h
    by_cases hu : u = t
    · simp [firstIdx, hu, getAt?]
    · rcases List.mem_cons.mp h with rfl | h'
      · exact absurd rfl hu
      · simpa [firstIdx, hu, getAt?] using ih h'

theorem not_mem_take_firstIdx {α : Type*} [DecidableEq α] (t : α) :
    ∀ l : List α, t ∉ l.take (firstIdx t l) := by
  intro l
  induction l with
  | nil => simp
  | cons u r ih =>
    by_cases hu : u = t
    · simp [firstIdx, hu]
    · simp only [firstIdx, hu, ite_false, List.take_succ_cons, List.mem_cons]
      rintro (rfl | h)
      · exact hu rfl
      · exact ih h

theorem firstIdx_eq_of {α : Type*} [DecidableEq α] {t : α} :
    ∀ {l : List α} {i : Nat}, getAt? l i = some t → t ∉ l.take i → firstIdx t l = i := by
  intro l
  induction l with
  | nil => intro i h _; simp [getAt?] at h
  | cons u r ih =>
    intro i hg ht
    cases i with
    | zero =>
      simp only [getAt?, Option.some.injEq] at hg
      simp [firstIdx, hg]
    | succ n =>
      simp only [List.take_succ_cons, List.mem_cons] at ht
      push_neg at ht
      have hu : ¬u = t := fun hh => ht.1 hh.symm
      simp only [firstIdx, hu, ite_false]
      exact congrArg (· + 1) (ih hg ht.2)

theorem firstIdx_inj {α : Type*} [DecidableEq α] {l : List α} {t u : α}
    (ht : t ∈ l) (hu : u ∈ l) (h : firstIdx t l = firstIdx u l) : t = u := by
  have h1 := getAt?_firstIdx ht
  have h2 := getAt?_firstIdx hu
  rw [h] at h1
  rw [h1] at h2
  exact (Option.some.injEq _ _).mp h2

theorem countTok_pos_iff {α : Type*} [DecidableEq α] {t : α} :
    ∀ {l : List α}, 0 < countTok t l ↔ t ∈ l := by
  intro l
  induction l with
  | nil => simp [countTok]
  | cons u r ih =>
    by_cases hu : u = t
    · simp [countTok, hu]
    · simp only [countTok, hu, ite_false, Nat.zero_add, List.mem_cons]
      rw [ih]
      constructor
      · exact Or.inr
      · rintro (rfl | h)
        · exact absurd rfl hu
        · exact h

theorem countTok_map {α β : Type*} [DecidableEq α] [DecidableEq β]
    {g : α → β} {t : α} {x : β} :
    ∀ {l : List α}, (∀ u ∈ l, (g u = x ↔ u = t)) → countTok x (l.map g) = countTok t l := by
  intro l
  induction l with
  | nil => intro _; rfl
  | cons u r ih =>
    intro h
    have hu := h u (List.mem_cons_self u r)
    have hr : ∀ v ∈ r, (g v = x ↔ v = t) := fun v hv => h v (List.mem_cons_of_mem u hv)
    by_cases he : u = t
    · subst he
      have hgu : g u = x := hu.mpr rfl
      simp [countTok, hgu, ih hr]
    · have hgu : ¬g u = x := fun hh => he (hu.mp hh)
      simp [countTok, he, hgu, ih hr]

theorem firstIdx_map {α β : Type*} [DecidableEq α] [DecidableEq β]
    {g : α → β} {t : α} {x : β} :
    ∀ {l : List α}, (∀ u ∈ l, (g u = x ↔ u = t)) → firstIdx x (l.map g) = firstIdx t l := by
  intro l
  induction l with
  | nil => intro _; rfl
  | cons u r ih =>
    intro h
    have hu := h u (List.mem_cons_self u r)
    have hr : ∀ v ∈ r, (g v = x ↔ v = t) := fun v hv => h v (List.mem_cons_of_mem u hv)
    by_cases he : u = t
    · subst he
      have hgu : g u = x := hu.mpr rfl
      simp [firstIdx, hgu]
    · have hgu : ¬g u = x := fun hh => he (hu.mp hh)
      simp [firstIdx, he, hgu, ih hr]

/-! ## dedupFirst / distinctFirst -/

theorem mem_dedupFirst {α : Type*} [DecidableEq α] {x : α} :
    ∀ (l seen : List α), x ∈ dedupFirst seen l ↔ x ∈ l ∧ x ∉ seen := by
  intro l
  induction l with
  | nil => intro seen; simp [dedupFirst]
  | cons t r ih =>
    intro seen
    by_cases ht : t ∈ seen
    · rw [dedupFirst, if_pos ht, ih seen]
      constructor
      · rintro ⟨h1, h2⟩
        exact ⟨List.mem_cons_of_mem t h1, h2⟩
      · rintro ⟨h1, h2⟩
        rcases List.mem_cons.mp h1 with rfl | h1'
        · exact absurd ht h2
        · exact ⟨h1', h2⟩
    · rw [dedupFirst, if_neg ht]
      constructor
      · intro hx
        rcases List.mem_cons.mp hx with rfl | hx'
        · exact ⟨List.mem_cons_self x r, ht⟩
        · obtain ⟨h1, h2⟩ := (ih (t :: seen)).mp hx'
          exact ⟨List.mem_cons_of_mem t h1, fun hs => h2 (List.mem_cons_of_mem t hs)⟩
      · rintro ⟨h1, h2⟩
        rcases List.mem_cons.mp h1 with rfl | h1'
        · exact List.mem_cons_self x _
        · by_cases hx : x = t
          · exact hx ▸ List.mem_cons_self t _
          · refine List.mem_cons_of_mem t ((ih (t :: seen)).mpr ⟨h1', ?_⟩)
            intro hs
            rcases List.mem_cons.mp hs with h | h
            · exact hx h
            · exact h2 h

theorem nodup_dedupFirst {α : Type*} [DecidableEq α] :
    ∀ (l seen : List α), (dedupFirst seen l).Nodup := by
  intro l
  induction l with
  | nil => intro seen; simp [dedupFirst]
  | cons t r ih =>
    intro seen
    by_cases ht : t ∈ seen
    · rw [dedupFirst, if_pos ht]
      exact ih seen
    · rw [dedupFirst, if_neg ht]
      refine List.nodup_cons.mpr ⟨?_, ih (t :: seen)⟩
      intro hmem
      exact ((mem_dedupFirst _ _).mp hmem).2 (List.mem_cons_self t seen)

theorem mem_distinctFirst {α : Type*} [DecidableEq α] {x : α} {l : List α} :
    x ∈ distinctFirst l ↔ x ∈ l := by
  rw [distinctFirst, mem_dedupFirst _ _]
  simp

theorem nodup_distinctFirst {α : Type*} [DecidableEq α] (l : List α) :
    (distinctFirst l).Nodup := nodup_dedupFirst l []

theorem dedupFirst_map {α β : Type*} [DecidableEq α] [DecidableEq β] {g : α → β} :
    ∀ {l seen : List α},
      (∀ u ∈ seen ++ l, ∀ v ∈ seen ++ l, g u = g v → u = v) →
      dedupFirst (seen.map g) (l.map g) = (dedupFirst seen l).map g := by
  intro l
  induction l with
  | nil => intro seen _; rfl
  | cons t r ih =>
    intro seen hinj
    have htl : t ∈ seen ++ t :: r := List.mem_append_right seen (List.mem_cons_self t r)
    have hmem : g t ∈ seen.map g ↔ t ∈ seen := by
      constructor
      · intro h
        obtain ⟨s, hs, hgs⟩ := List.mem_map.mp h
        have : s = t := hinj s (List.mem_append_left _ hs) t htl hgs
        exact this ▸ hs
      · exact fun h => List.mem_map.mpr ⟨t, h, rfl⟩
    by_cases ht : t ∈ seen
    · rw [List.map_cons, dedupFirst, if_pos (hmem.mpr ht), dedupFirst, if_pos ht]
      refine ih ?_
      intro u hu v hv
      refine hinj u ?_ v ?_
      · rcases List.mem_append.mp hu with h | h
        · exact List.mem_append_left _ h
        · exact List.mem_append_right _ (List.mem_cons_of_mem t h)
      · rcases List.mem_append.mp hv with h | h
        · exact List.mem_append_left _ h
        · exact List.mem_append_right _ (List.mem_cons_of_mem t h)
    · rw [List.map_cons, dedupFirst, if_neg (fun hh => ht (hmem.mp hh)),
        dedupFirst, if_neg ht, ← List.map_cons]
      have hperm : ∀ w, w ∈ (t :: seen) ++ r → w ∈ seen ++ t :: r := by
        intro w hw
        rcases List.mem_append.mp hw with h | h
        · rcases List.mem_cons.mp h with rfl | h2
          · exact List.mem_append_right seen (List.mem_cons_self w r)
          · exact List.mem_append_left _ h2
        · exact List.mem_append_right seen (List.mem_cons_of_mem t h)
      have : dedupFirst ((t :: seen).map g) (r.map g) = (dedupFirst (t :: seen) r).map g :=
        ih fun u hu v hv hg => hinj u (hperm u hu) v (hperm v hv) hg
      rw [this, List.map_cons]

/-! ## mapO, association lookup, contains, enumerate -/

theorem mapO_eq_some {α β : Type*} {h : α → Option β} {g : α → β} :
    ∀ {l : List α}, (∀ a ∈ l, h a = some (g a)) → mapO h l = some (l.map g) := by
  intro l
  induction l with
  | nil => intro _; rfl
  | cons a t ih =>
    intro hl
    have ha : h a = some (g a) := hl a (List.mem_cons_self a t)
    have ht : mapO h t = some (t.map g) := ih fun x hx => hl x (List.mem_cons_of_mem a hx)
    simp [mapO, ha, ht]

theorem lookup_eq_some_of_mem {α β : Type*} [BEq α] [LawfulBEq α] :
    ∀ {l : List (α × β)} {a : α} {b : β},
      (l.map Prod.fst).Nodup → (a, b) ∈ l → List.lookup a l = some b := by
  intro l
  induction l with
  | nil => intro a b _ h; simp at h
  | cons p es ih =>
    intro a b hnd hmem
    obtain ⟨k, v⟩ := p
    have hk : k ∉ es.map Prod.fst := (List.nodup_cons.mp (by simpa using hnd)).1
    have hnd' : (es.map Prod.fst).Nodup := (List.nodup_cons.mp (by simpa using hnd)).2
    rcases List.mem_cons.mp hmem with heq | hmem'
    · obtain ⟨rfl, rfl⟩ := Prod.mk.injEq a b k v |>.mp heq
      simp [List.lookup]
    · cases hbeq : a == k
      · simp only [List.lookup, hbeq]
        exact ih hnd' hmem'
      · exfalso
        exact hk (eq_of_beq hbeq ▸ List.mem_map.mpr ⟨(a, b), hmem', rfl⟩)

theorem mem_of_lookup_eq_some {α β : Type*} [BEq α] [LawfulBEq α] :
    ∀ {l : List (α × β)} {a : α} {b : β}, List.lookup a l = some b → (a, b) ∈ l := by
  intro l
  induction l with
  | nil => intro a b h; simp [List.lookup] at h
  | cons p es ih =>
    intro a b h
    obtain ⟨k, v⟩ := p
    cases hbeq : a == k
    · simp only [List.lookup, hbeq] at h
      exact List.mem_cons_of_mem _ (ih h)
    · simp only [List.lookup, hbeq, Option.some.injEq] at h
      have : a = k := eq_of_beq hbeq
      exact List.mem_cons.mpr (Or.inl (by rw [this, h]))

theorem contains_iff_mem {α : Type*} [BEq α] [LawfulBEq α] {l : List α} {a : α} :
    l.contains a = true ↔ a ∈ l := by
  induction l with
  | nil => simp
  | cons b t ih => simp

theorem mem_enumFrom {α : Type*} {p : Nat × α} :
    ∀ (l : List α) (k : Nat),
      p ∈ enumFrom k l ↔ ∃ j, getAt? l j = some p.2 ∧ p.1 = k + j := by
  intro l
  induction l with
  | nil => intro k; simp [enumFrom, getAt?]
  | cons a t ih =>
    intro k
    rw [enumFrom, List.mem_cons, ih (k + 1)]
    constructor
    · rintro (rfl | ⟨j, hg, hk⟩)
      · exact ⟨0, rfl, rfl⟩
      · exact ⟨j + 1, hg, by omega⟩
    · rintro ⟨j, hg, hk⟩
      cases j with
      | zero =>
        left
        have h2 : a = p.2 := by simpa [getAt?] using hg
        have hp1 : p.1 = k := by omega
        exact Prod.ext hp1 h2.symm
      | succ m =>
        right
        exact ⟨m, hg, by omega⟩

theorem enumFrom_map_snd {α : Type*} :
    ∀ (l : List α) (k : Nat), (enumFrom k l).map Prod.snd = l := by
  intro l
  induction l with
  | nil => intro k; rfl
  | cons a t ih => intro k; simp [enumFrom, ih]

theorem enumFrom_map_fst {α : Type*} :
    ∀ (l : List α) (k : Nat), (enumFrom k l).map Prod.fst = List.range' k l.length := by
  intro l
  induction l with
  | nil => intro k; rfl
  | cons a t ih => intro k; simp [enumFrom, List.range'_succ, ih]

theorem enumFrom_map {α β : Type*} (f : α → β) :
    ∀ (l : List α) (k : Nat),
      enumFrom k (l.map f) = (enumFrom k l).map fun p => (p.1, f p.2) := by
  intro l
  induction l with
  | nil => intro k; rfl
  | cons a t ih => intro k; simp [enumFrom, ih]

theorem enumFrom_fst_lt {α : Type*} :
    ∀ (l : List α) (k : Nat),
      (enumFrom k l).Pairwise fun p q => p.1 < q.1 := by
  intro l
  induction l with
  | nil => intro k; simp [enumFrom]
  | cons a t ih =>
    intro k
    refine List.pairwise_cons.mpr ⟨?_, ih (k + 1)⟩
    intro q hq
    obtain ⟨j, _, hj⟩ := (mem_enumFrom t (k + 1)).mp hq
    simp only
    omega

/-! ## Pairwise transfer helper -/

theorem pairwise_mem_imp {α : Type*} {R S : α → α → Prop} :
    ∀ {l : List α}, l.Pairwise R → (∀ a ∈ l, ∀ b ∈ l, R a b → S a b) → l.Pairwise S := by
  intro l
  induction l with
  | nil => intro _ _; exact List.Pairwise.nil
  | cons a t ih =>
    intro hp himp
    rcases List.pairwise_cons.mp hp with ⟨ha, ht⟩
    refine List.pairwise_cons.mpr ⟨?_, ?_⟩
    · intro b hb
      exact himp a (List.mem_cons_self a t) b (List.mem_cons_of_mem a hb) (ha b hb)
    · exact ih ht fun x hx y hy =>
        himp x (List.mem_cons_of_mem a hx) y (List.mem_cons_of_mem a hy)

/-! ## Decimal rendering -/

theorem digitVal_digitChar : ∀ d, d < 10 → digitVal (digitChar d) = d := by decide

theorem digitChar_not_space : ∀ d, d < 10 → pyIsSpace (digitChar d) = false := by decide

theorem natToTokAux_digits :
    ∀ (fuel n : Nat) (c : Char), c ∈ natToTokAux fuel n → ∃ d, d < 10 ∧ c = digitChar d := by
  intro fuel
  induction fuel with
  | zero => intro n c h; simp [natToTokAux] at h
  | succ f ih =>
    intro n c h
    by_cases hn : n < 10
    · rw [natToTokAux, if_pos hn] at h
      rcases List.mem_cons.mp h with rfl | h'
      · exact ⟨n, hn, rfl⟩
      · simp at h'
    · rw [natToTokAux, if_neg hn] at h
      rcases List.mem_append.mp h with h' | h'
      · exact ih (n / 10) c h'
      · rcases List.mem_cons.mp h' with rfl | h''
        · exact ⟨n % 10, Nat.mod_lt n (by omega), rfl⟩
        · simp at h''

theorem natToTok_not_space {n : Nat} {c : Char} (h : c ∈ natToTok n) :
    pyIsSpace c = false := by
  obtain ⟨d, hd, rfl⟩ := natToTokAux_digits (n + 1) n c h
  exact digitChar_not_space d hd

theorem natToTok_ne_nil (n : Nat) : natToTok n ≠ [] := by
  rw [natToTok, natToTokAux]
  by_cases hn : n < 10
  · simp [hn]
  · simp only [hn, ite_false]
    exact fun h => by simpa using List.append_eq_nil.mp h |>.2

theorem tokToNat_natToTokAux :
    ∀ (fuel n : Nat), n < 10 ^ fuel → tokToNat (natToTokAux fuel n) = n := by
  intro fuel
  induction fuel with
  | zero =>
    intro n h
    simp only [pow_zero, Nat.lt_one_iff] at h
    simp [h, natToTokAux, tokToNat]
  | succ f ih =>
    intro n h
    by_cases hn : n < 10
    · rw [natToTokAux, if_pos hn]
      simp only [tokToNat, List.foldl_cons, List.foldl_nil, Nat.zero_mul, Nat.zero_add]
      exact digitVal_digitChar n hn
    · rw [natToTokAux, if_neg hn]
      have hdiv : n / 10 < 10 ^ f := by
        rw [Nat.div_lt_iff_lt_mul (by omega)]
        calc n < 10 ^ (f + 1) := h
          _ = 10 ^ f * 10 := by rw [pow_succ]
      have := ih (n / 10) hdiv
      simp only [tokToNat, List.foldl_append, List.foldl_cons, List.foldl_nil] at this ⊢
      rw [this, digitVal_digitChar (n % 10) (Nat.mod_lt n (by omega))]
      omega

theorem tokToNat_natToTok (n : Nat) : tokToNat (natToTok n) = n := by
  refine tokToNat_natToTokAux (n + 1) n ?_
  calc n < 10 ^ n := Nat.lt_pow_self (by omega) n
    _ ≤ 10 ^ (n + 1) := Nat.pow_le_pow_right (by omega) (Nat.le_succ n)

theorem natToTok_inj {m n : Nat} (h : natToTok m = natToTok n) : m = n := by
  have := tokToNat_natToTok m
  rw [h, tokToNat_natToTok n] at this
  exact this.symm

/-! ## Splitting and joining -/

theorem pySplitAux_no_space :
    ∀ (t rest acc : List Char), (∀ c ∈ t, pyIsSpace c = false) →
      pySplitAux (t ++ rest) acc = pySplitAux rest (t.reverse ++ acc) := by
  intro t
  induction t with
  | nil => intro rest acc _; simp
  | cons c cs ih =>
    intro rest acc h
    have hc : pyIsSpace c = false := h c (List.mem_cons_self c cs)
    have hcs : ∀ x ∈ cs, pyIsSpace x = false := fun x hx => h x (List.mem_cons_of_mem c hx)
    simp only [List.cons_append, pySplitAux, hc, Bool.false_eq_true, not_false_iff, ite_false]
    show pySplitAux (cs ++ rest) (c :: acc) = pySplitAux rest ((c :: cs).reverse ++ acc)
    rw [ih rest (c :: acc) hcs]
    simp

theorem pySplit_joinSep :
    ∀ parts : List (List Char),
      (∀ p ∈ parts, p ≠ [] ∧ ∀ c ∈ p, pyIsSpace c = false) →
      pySplit (joinSep [' '] parts) = parts := by
  intro parts
  induction parts with
  | nil => intro _; rfl
  | cons p rest ih =>
    intro h
    have hp := h p (List.mem_cons_self p rest)
    have hrest := fun q hq => h q (List.mem_cons_of_mem p hq)
    cases rest with
    | nil =>
      show pySplitAux p [] = [p]
      have h1 : pySplitAux (p ++ []) [] = pySplitAux [] (p.reverse ++ []) :=
        pySplitAux_no_space p [] [] hp.2
      simp only [List.append_nil] at h1
      rw [h1, pySplitAux, if_neg (by simpa using hp.1)]
      simp
    | cons q rest' =>
      show pySplitAux ((p ++ [' ']) ++ joinSep [' '] (q :: rest')) [] = p :: q :: rest'
      rw [List.append_assoc]
      have h1 := pySplitAux_no_space p ([' '] ++ joinSep [' '] (q :: rest')) [] hp.2
      simp only [List.append_nil] at h1
      rw [h1]
      show (if p.reverse.isEmpty then pySplitAux (joinSep [' '] (q :: rest')) []
        else p.reverse.reverse :: pySplitAux (joinSep [' '] (q :: rest')) []) = p :: q :: rest'
      rw [if_neg (by simpa using hp.1), List.reverse_reverse]
      rw [show pySplitAux (joinSep [' '] (q :: rest')) [] =
        pySplit (joinSep [' '] (q :: rest')) from rfl]
      rw [ih hrest]

theorem tripleLe2_total :
    ∀ a b : Int × Nat × Tok, tripleLe2 a b = true ∨ tripleLe2 b a = true := by
  intro a b
  exact keyLe_total (a.1, a.2.1) (b.1, b.2.1)

theorem tripleLe2_trans :
    ∀ a b c : Int × Nat × Tok,
      tripleLe2 a b = true → tripleLe2 b c = true → tripleLe2 a c = true := by
  intro a b c hab hbc
  exact keyLe_trans _ _ _ hab hbc

/-! ## The bridge between `freq_enc` and the reference algorithm -/

/-- The triple `freq_enc` builds for a distinct token. -/
def keyTriple (tokens : List Tok) (t : Tok) : Int × Nat × Tok :=
  (-(countTok t tokens : Int), firstIdx t tokens, t)

/-- The rank table, written in terms of the reference sorted order. -/
def rankTable (tokens : List Tok) : List (Tok × Nat) :=
  (enumerate (rankedTokens tokens)).map fun p => (p.2, p.1)

theorem specLe_total (tokens : List Tok) :
    ∀ a b : Tok, specLe tokens a b = true ∨ specLe tokens b a = true :=
  fun _ _ => keyLe_total _ _

theorem specLe_trans (tokens : List Tok) :
    ∀ a b c : Tok, specLe tokens a b = true → specLe tokens b c = true →
      specLe tokens a c = true :=
  fun _ _ _ hab hbc => keyLe_trans _ _ _ hab hbc

theorem rankedTokens_perm (tokens : List Tok) :
    (rankedTokens tokens).Perm (distinctFirst tokens) :=
  pySort_perm _ _

theorem rankedTokens_nodup (tokens : List Tok) : (rankedTokens tokens).Nodup :=
  ((rankedTokens_perm tokens).nodup_iff).mpr (nodup_distinctFirst tokens)

theorem mem_rankedTokens {tokens : List Tok} {t : Tok} :
    t ∈ rankedTokens tokens ↔ t ∈ tokens := by
  rw [rankedTokens, mem_pySort, mem_distinctFirst]

theorem rankedTokens_sorted (tokens : List Tok) :
    (rankedTokens tokens).Pairwise fun a b => specLe tokens a b = true :=
  pySort_pairwise (specLe_total tokens) (specLe_trans tokens) _

/-- The members of the dict-comprehension filter: exactly the pairs
`(first-occurrence index of t, t)` for `t` in the list. -/
theorem mem_foo_filtered {tokens : List Tok} {p : Nat × Tok} :
    p ∈ (enumerate tokens).filter (fun p => !((tokens.take p.1).contains p.2)) ↔
      p.2 ∈ tokens ∧ p.1 = firstIdx p.2 tokens := by
  rw [List.mem_filter]
  constructor
  · rintro ⟨hmem, hcond⟩
    obtain ⟨j, hg, hj⟩ := (mem_enumFrom tokens 0).mp hmem
    have hj' : p.1 = j := by omega
    subst hj'
    have hnotin : p.2 ∉ tokens.take p.1 := by
      intro hin
      have := contains_iff_mem.mpr hin
      rw [this] at hcond
      simp at hcond
    exact ⟨getAt?_mem hg, (firstIdx_eq_of hg hnotin).symm⟩
  · rintro ⟨hmem, hidx⟩
    have hg : getAt? tokens p.1 = some p.2 := hidx ▸ getAt?_firstIdx hmem
    refine ⟨(mem_enumFrom tokens 0).mpr ⟨p.1, hg, by omega⟩, ?_⟩
    have hnotin : p.2 ∉ tokens.take p.1 := hidx ▸ not_mem_take_firstIdx p.2 tokens
    simpa using hnotin

theorem mem_first_occurrence_order {tokens : List Tok} {q : Tok × Nat} :
    q ∈ first_occurrence_order tokens ↔ q.1 ∈ tokens ∧ q.2 = firstIdx q.1 tokens := by
  rw [first_occurrence_order, List.mem_map]
  constructor
  · rintro ⟨p, hp, rfl⟩
    exact mem_foo_filtered.mp hp
  · rintro ⟨hmem, hidx⟩
    exact ⟨(q.2, q.1), mem_foo_filtered.mpr ⟨hmem, hidx⟩, rfl⟩

theorem first_occurrence_order_keys_nodup (tokens : List Tok) :
    ((first_occurrence_order tokens).map Prod.fst).Nodup := by
  rw [first_occurrence_order, List.map_map]
  have hpw : ((enumerate tokens).filter
      (fun p => !((tokens.take p.1).contains p.2))).Pairwise fun p q => p.1 < q.1 :=
    (enumFrom_fst_lt tokens 0).sublist (List.filter_sublist _)
  have hnd : ((enumerate tokens).filter
      (fun p => !((tokens.take p.1).contains p.2))).Nodup :=
    hpw.imp fun h heq => by rw [heq] at h; omega
  refine hnd.map_on ?_
  intro x hx y hy hxy
  have hx' := mem_foo_filtered.mp hx
  have hy' := mem_foo_filtered.mp hy
  have h2 : x.2 = y.2 := hxy
  have h1 : x.1 = y.1 := by rw [hx'.2, hy'.2, h2]
  exact Prod.ext h1 h2

theorem first_occurrence_order_lookup {tokens : List Tok} {t : Tok} (ht : t ∈ tokens) :
    (first_occurrence_order tokens).lookup t = some (firstIdx t tokens) :=
  lookup_eq_some_of_mem (first_occurrence_order_keys_nodup tokens)
    (mem_first_occurrence_order.mpr ⟨ht, rfl⟩)

theorem char_rank_data_eq (tokens : List Tok) :
    char_rank_data tokens = some ((distinctFirst tokens).map (keyTriple tokens)) := by
  rw [char_rank_data]
  have h : mapO
      (fun p : Tok × Nat => ((first_occurrence_order tokens).lookup p.1).map
        fun fo => (-(p.2 : Int), fo, p.1))
      (counts tokens) =
      some ((counts tokens).map fun p => (-(p.2 : Int), firstIdx p.1 tokens, p.1)) := by
    refine mapO_eq_some ?_
    intro p hp
    obtain ⟨t, htD, rfl⟩ := List.mem_map.mp hp
    have ht : t ∈ tokens := mem_distinctFirst.mp htD
    rw [first_occurrence_order_lookup ht]
    rfl
  rw [h, counts, List.map_map]
  rfl

/-- Distinct members of the token list have distinct first-occurrence
indices, hence distinct second key components. -/
theorem keyTriple_snd_inj {tokens : List Tok} {a b : Tok}
    (ha : a ∈ tokens) (hb : b ∈ tokens)
    (h : (keyTriple tokens a).2.1 = (keyTriple tokens b).2.1) : a = b :=
  firstIdx_inj ha hb h

theorem tripleLe_antisymm_keys {x y : Int × Nat × Tok}
    (h1 : tripleLe x y = true) (h2 : tripleLe y x = true) :
    x.1 = y.1 ∧ x.2.1 = y.2.1 := by
  by_cases ha : x.1 = y.1
  · refine ⟨ha, ?_⟩
    by_cases hb : x.2.1 = y.2.1
    · exact hb
    · rw [tripleLe, if_pos ha, if_neg hb] at h1
      rw [tripleLe, if_pos ha.symm, if_neg (fun hh => hb hh.symm)] at h2
      simp only [decide_eq_true_eq] at h1 h2
      omega
  · rw [tripleLe, if_neg ha] at h1
    rw [tripleLe, if_neg (fun hh => ha hh.symm)] at h2
    simp only [decide_eq_true_eq] at h1 h2
    omega

theorem specLe_strict {tokens : List Tok} {a b : Tok}
    (ha : a ∈ tokens) (hb : b ∈ tokens) (hne : a ≠ b)
    (h : specLe tokens a b = true) :
    tripleLe (keyTriple tokens a) (keyTriple tokens b) = true := by
  have hidx : firstIdx a tokens ≠ firstIdx b tokens :=
    fun hh => hne (firstIdx_inj ha hb hh)
  rw [specLe, tokKey, tokKey] at h
  rw [tripleLe, keyTriple, keyTriple]
  simp only
  by_cases hc : -(countTok a tokens : Int) = -(countTok b tokens : Int)
  · rw [keyLe, if_pos hc] at h
    simp only [decide_eq_true_eq] at h
    rw [if_pos hc, if_neg hidx]
    simp only [decide_eq_true_eq]
    omega
  · rw [keyLe, if_neg hc] at h
    rw [if_neg hc]
    exact h

theorem sorted_data_eq (tokens : List Tok) :
    pySort tripleLe ((distinctFirst tokens).map (keyTriple tokens)) =
      (rankedTokens tokens).map (keyTriple tokens) := by
  have hperm : (pySort tripleLe ((distinctFirst tokens).map (keyTriple tokens))).Perm
      ((rankedTokens tokens).map (keyTriple tokens)) :=
    (pySort_perm _ _).trans ((rankedTokens_perm tokens).map _).symm
  refine eq_of_perm_pairwise hperm
    (pySort_pairwise tripleLe_total tripleLe_trans _) ?_ ?_
  · rw [List.pairwise_map]
    have hsort := rankedTokens_sorted tokens
    have hnd : (rankedTokens tokens).Pairwise (· ≠ ·) := rankedTokens_nodup tokens
    refine pairwise_mem_imp (hsort.and hnd) ?_
    intro a hma b hmb hab
    exact specLe_strict (mem_rankedTokens.mp hma) (mem_rankedTokens.mp hmb) hab.2 hab.1
  · intro x hx y hy h1 h2
    have hx' := mem_pySort.mp hx
    have hy' := mem_pySort.mp hy
    obtain ⟨a, haD, rfl⟩ := List.mem_map.mp hx'
    obtain ⟨b, hbD, rfl⟩ := List.mem_map.mp hy'
    have := tripleLe_antisymm_keys h1 h2
    have hab : a = b :=
      keyTriple_snd_inj (mem_distinctFirst.mp haD) (mem_distinctFirst.mp hbD) this.2
    rw [hab]

theorem char_to_rank_id_eq (tokens : List Tok) :
    char_to_rank_id tokens = some (rankTable tokens) := by
  rw [char_to_rank_id, char_rank_data_eq, Option.map_some', sorted_data_eq]
  rw [rankTable]
  rw [show enumerate ((rankedTokens tokens).map (keyTriple tokens)) =
    enumFrom 0 ((rankedTokens tokens).map (keyTriple tokens)) from rfl]
  rw [enumFrom_map (keyTriple tokens) (rankedTokens tokens) 0, List.map_map]
  rfl

theorem rankTable_map_fst (tokens : List Tok) :
    (rankTable tokens).map Prod.fst = rankedTokens tokens := by
  rw [rankTable, List.map_map]
  exact enumFrom_map_snd (rankedTokens tokens) 0

theorem rankTable_keys_nodup (tokens : List Tok) :
    ((rankTable tokens).map Prod.fst).Nodup := by
  rw [rankTable_map_fst]
  exact rankedTokens_nodup tokens

theorem mem_rankTable {tokens : List Tok} {t : Tok} {r : Nat} :
    (t, r) ∈ rankTable tokens ↔ getAt? (rankedTokens tokens) r = some t := by
  rw [rankTable, List.mem_map]
  constructor
  · rintro ⟨p, hp, heq⟩
    obtain ⟨j, hg, hj⟩ := (mem_enumFrom _ 0).mp hp
    obtain ⟨h1, h2⟩ := Prod.mk.injEq _ _ _ _ |>.mp heq
    have hjr : j = r := by omega
    rw [hjr, h1] at hg
    exact hg
  · intro hg
    refine ⟨(r, t), (mem_enumFrom _ 0).mpr ⟨r, hg, by omega⟩, rfl⟩

theorem rankTable_lookup {tokens : List Tok} {t : Tok} (ht : t ∈ tokens) :
    (rankTable tokens).lookup t = some (rankOf tokens t) := by
  refine lookup_eq_some_of_mem (rankTable_keys_nodup tokens) ?_
  rw [mem_rankTable, rankOf]
  exact getAt?_firstIdx (mem_rankedTokens.mpr ht)

/-- The central bridge: `freq_enc` never fails and returns exactly what the
specification's reference algorithm computes. -/
theorem freq_enc_eq_spec (text : String) : freq_enc text = some (encode_spec text) := by
  by_cases he : (pySplit text.data).isEmpty
  · rw [freq_enc, encode_spec]
    simp only [he, ite_true]
  · have hfalse : (pySplit text.data).isEmpty = false := by
      cases hb : (pySplit text.data).isEmpty
      · rfl
      · exact absurd hb he
    rw [freq_enc, encode_spec]
    simp only [hfalse, Bool.false_eq_true, if_false]
    rw [char_to_rank_id_eq, Option.some_bind]
    have h : mapO (fun t => ((rankTable (pySplit text.data)).lookup t).map natToTok)
        (pySplit text.data) =
        some ((pySplit text.data).map fun t => natToTok (rankOf (pySplit text.data) t)) := by
      refine mapO_eq_some ?_
      intro t htok
      rw [rankTable_lookup htok]
      rfl
    rw [h, Option.map_some']

theorem encoded_ranks_eq (text : String) :
    encoded_ranks text =
      some ((pySplit text.data).map fun t => rankOf (pySplit text.data) t) := by
  rw [encoded_ranks, char_to_rank_id_eq, Option.some_bind]
  refine mapO_eq_some ?_
  intro t htok
  exact rankTable_lookup htok

/-! ## Rank semantics -/

/-- Positionally ordered tokens in the ranked list are strictly ordered by
key: the earlier one compares `≤` and they are distinct. -/
theorem rankedTokens_strict {tokens : List Tok} {i j : Nat} {a b : Tok}
    (hij : i < j) (hi : getAt? (rankedTokens tokens) i = some a)
    (hj : getAt? (rankedTokens tokens) j = some b) :
    specLe tokens a b = true ∧ a ≠ b := by
  have hsorted := rankedTokens_sorted tokens
  have hnd : (rankedTokens tokens).Pairwise (· ≠ ·) := rankedTokens_nodup tokens
  exact pairwise_getAt? (hsorted.and hnd) hij hi hj

/-- Unfolding a strict key comparison into the count/first-occurrence
disjunction of the specification. -/
theorem specLe_cases {tokens : List Tok} {a b : Tok}
    (ha : a ∈ tokens) (hb : b ∈ tokens) (hne : a ≠ b)
    (h : specLe tokens a b = true) :
    countTok b tokens < countTok a tokens ∨
      (countTok b tokens = countTok a tokens ∧ firstIdx a tokens < firstIdx b tokens) := by
  have hidx : firstIdx a tokens ≠ firstIdx b tokens :=
    fun hh => hne (firstIdx_inj ha hb hh)
  rw [specLe, tokKey, tokKey] at h
  by_cases hc : -(countTok a tokens : Int) = -(countTok b tokens : Int)
  · rw [keyLe, if_pos hc] at h
    simp only [decide_eq_true_eq] at h
    right
    constructor
    · omega
    · omega
  · rw [keyLe, if_neg hc] at h
    simp only [decide_eq_true_eq] at h
    left
    omega

/-- In the ranked list, the rank of a member is recovered from its
position. -/
theorem rankOf_eq_of_getAt? {tokens : List Tok} {r : Nat} {t : Tok}
    (h : getAt? (rankedTokens tokens) r = some t) : rankOf tokens t = r :=
  firstIdx_eq_of h (nodup_not_mem_take (rankedTokens_nodup tokens) h)

/-! ## Claim theorems for the encoder core -/

/-- C1. For every input string with at least one token, `freq_enc` returns
the sequence obtained by the reference algorithm of the specification
(split, count, first-occurrence index, sort by `(−count, first index)`,
rank by position, map and join); in particular
`freq_enc "150 273 150 14 273 150" = "0 1 0 2 1 0"`. -/
theorem freq_enc_matches_reference (text : String)
    (h : pySplit text.data ≠ []) : freq_enc text = some (encode_spec text) :=
  freq_enc_eq_spec text

theorem freq_enc_matches_reference_witness :
    pySplit ("150 273 150 14 273 150" : String).data ≠ [] ∧
    freq_enc "150 273 150 14 273 150" = some (encode_spec "150 273 150 14 273 150") ∧
    encode_spec "150 273 150 14 273 150" = "0 1 0 2 1 0" :=
  ⟨by decide, freq_enc_matches_reference "150 273 150 14 273 150" (by decide), by decide⟩

/-- C6. For every input string with no tokens after whitespace splitting —
including the empty string and whitespace-only strings — `freq_enc`
returns the empty string. -/
theorem freq_enc_no_tokens (text : String) (h : pySplit text.data = []) :
    freq_enc text = some "" := by
  rw [freq_enc]
  simp [h]

theorem freq_enc_no_tokens_witness :
    (pySplit ("" : String).data = [] ∧ freq_enc "" = some "") ∧
    (pySplit ("   " : String).data = [] ∧ freq_enc "   " = some "") :=
  ⟨⟨by decide, freq_enc_no_tokens "" (by decide)⟩,
   ⟨by decide, freq_enc_no_tokens "   " (by decide)⟩⟩

/-- C7. `freq_enc` is total: for every string — empty, whitespace-only, or
untypeable tokens included — it returns a result, and in particular
both internal dictionary-lookup stages (`char_rank_data`, built from
`first_occurrence_order[token]`, and the final `char_to_rank_id[token]`
mapping inside `freq_enc`) succeed. -/
theorem freq_enc_total (text : String) :
    (freq_enc text).isSome = true ∧
    (char_rank_data (pySplit text.data)).isSome = true ∧
    (char_to_rank_id (pySplit text.data)).isSome = true := by
  refine ⟨?_, ?_, ?_⟩
  · rw [freq_enc_eq_spec]
    rfl
  · rw [char_rank_data_eq]
    rfl
  · rw [char_to_rank_id_eq]
    rfl

/-- C2. The token ranked 0 by `freq_enc` has strictly maximal count, or —
among tokens tied for maximal count — the smallest first-occurrence index;
more generally, of two distinct tokens with equal count the one occurring
first receives the lower rank. -/
theorem freq_enc_rank_zero_max (text : String)
    (hne : pySplit text.data ≠ []) :
    ∃ table, char_to_rank_id (pySplit text.data) = some table ∧
      (∀ t, (t, 0) ∈ table → ∀ u, u ∈ distinctFirst (pySplit text.data) → u ≠ t →
        countTok u (pySplit text.data) < countTok t (pySplit text.data) ∨
          (countTok u (pySplit text.data) = countTok t (pySplit text.data) ∧
            firstIdx t (pySplit text.data) < firstIdx u (pySplit text.data))) ∧
      (∀ a b ra rb, (a, ra) ∈ table → (b, rb) ∈ table → a ≠ b →
        countTok a (pySplit text.data) = countTok b (pySplit text.data) →
        firstIdx a (pySplit text.data) < firstIdx b (pySplit text.data) → ra < rb) := by
  refine ⟨rankTable (pySplit text.data), char_to_rank_id_eq _, ?_, ?_⟩
  · intro t ht u hu hut
    have hg0 : getAt? (rankedTokens (pySplit text.data)) 0 = some t := mem_rankTable.mp ht
    have huR : u ∈ rankedTokens (pySplit text.data) :=
      mem_rankedTokens.mpr (mem_distinctFirst.mp hu)
    obtain ⟨j, hj⟩ := mem_iff_getAt?.mp huR
    have hj0 : j ≠ 0 := by
      intro h
      rw [h, hg0] at hj
      have hteq : t = u := by simpa using hj
      exact hut hteq.symm
    have hstrict := rankedTokens_strict (by omega) hg0 hj
    exact specLe_cases (mem_rankedTokens.mp (getAt?_mem hg0))
      (mem_distinctFirst.mp hu) (fun hh => hut hh.symm) hstrict.1
  · intro a b ra rb hma hmb hab hcnt hidx
    have hga : getAt? (rankedTokens (pySplit text.data)) ra = some a := mem_rankTable.mp hma
    have hgb : getAt? (rankedTokens (pySplit text.data)) rb = some b := mem_rankTable.mp hmb
    by_contra hlt
    have hba : rb ≤ ra := by omega
    rcases Nat.lt_or_ge rb ra with h | h
    · have hstrict := rankedTokens_strict h hgb hga
      have := specLe_cases (mem_rankedTokens.mp (getAt?_mem hgb))
        (mem_rankedTokens.mp (getAt?_mem hga)) hstrict.2 hstrict.1
      omega
    · have : ra = rb := by omega
      rw [this, hgb] at hga
      have hbeq : b = a := by simpa using hga
      exact hab hbeq.symm

theorem freq_enc_rank_zero_max_witness :
    pySplit ("9 8 9 8" : String).data ≠ [] ∧
    ∃ table, char_to_rank_id (pySplit ("9 8 9 8" : String).data) = some table ∧
      (∀ t, (t, 0) ∈ table → ∀ u, u ∈ distinctFirst (pySplit ("9 8 9 8" : String).data) →
        u ≠ t →
        countTok u (pySplit ("9 8 9 8" : String).data) <
            countTok t (pySplit ("9 8 9 8" : String).data) ∨
          (countTok u (pySplit ("9 8 9 8" : String).data) =
              countTok t (pySplit ("9 8 9 8" : String).data) ∧
            firstIdx t (pySplit ("9 8 9 8" : String).data) <
              firstIdx u (pySplit ("9 8 9 8" : String).data))) ∧
      (∀ a b ra rb, (a, ra) ∈ table → (b, rb) ∈ table → a ≠ b →
        countTok a (pySplit ("9 8 9 8" : String).data) =
          countTok b (pySplit ("9 8 9 8" : String).data) →
        firstIdx a (pySplit ("9 8 9 8" : String).data) <
          firstIdx b (pySplit ("9 8 9 8" : String).data) → ra < rb) :=
  ⟨by decide, freq_enc_rank_zero_max "9 8 9 8" (by decide)⟩

/-- The `char_rank_data` triples of distinct tokens differ in their
first-occurrence component. -/
theorem char_rank_data_snd_inj {text : String} {data : List (Int × Nat × Tok)}
    (h : char_rank_data (pySplit text.data) = some data) :
    ∀ x ∈ data, ∀ y ∈ data, x ≠ y → x.2.1 ≠ y.2.1 := by
  rw [char_rank_data_eq] at h
  have hdata : data = (distinctFirst (pySplit text.data)).map
      (keyTriple (pySplit text.data)) := by
    injection h.symm
  subst hdata
  intro x hx y hy hne
  obtain ⟨a, haD, rfl⟩ := List.mem_map.mp hx
  obtain ⟨b, hbD, rfl⟩ := List.mem_map.mp hy
  intro hsnd
  exact hne (congrArg _ (keyTriple_snd_inj (mem_distinctFirst.mp haD)
    (mem_distinctFirst.mp hbD) hsnd))

/-- A `tripleLe`-ordered pair of triples with distinct second components is
also `tripleLe2`-ordered. -/
theorem tripleLe_to_tripleLe2 {x y : Int × Nat × Tok}
    (hsnd : x.2.1 ≠ y.2.1) (h : tripleLe x y = true) : tripleLe2 x y = true := by
  rw [tripleLe] at h
  rw [tripleLe2, keyLe]
  by_cases h1 : x.1 = y.1
  · rw [if_pos h1, if_neg hsnd] at h
    simp only [decide_eq_true_eq] at h
    simp only [h1, ite_true, decide_eq_true_eq]
    omega
  · rw [if_neg h1] at h
    simp only [h1, ite_false]
    exact h

/-- C3. Sorting `char_rank_data` with the full three-component comparison
gives the same list as sorting with the two-key comparison alone: the token
in third position never influences the order, because the triples of
distinct tokens already differ in their first-occurrence component. -/
theorem freq_enc_sort_ignores_token (text : String) (data : List (Int × Nat × Tok))
    (h : char_rank_data (pySplit text.data) = some data) :
    pySort tripleLe data = pySort tripleLe2 data ∧
      ∀ x ∈ data, ∀ y ∈ data, x ≠ y → x.2.1 ≠ y.2.1 := by
  have hsnd := char_rank_data_snd_inj h
  refine ⟨?_, hsnd⟩
  have hdnd : data.Nodup := by
    rw [char_rank_data_eq] at h
    have hdata : data = (distinctFirst (pySplit text.data)).map
        (keyTriple (pySplit text.data)) := by
      injection h.symm
    subst hdata
    refine (nodup_distinctFirst _).map_on ?_
    intro a _ b _ hk
    have : (keyTriple (pySplit text.data) a).2.2 =
        (keyTriple (pySplit text.data) b).2.2 := by rw [hk]
    exact this
  have hperm : (pySort tripleLe data).Perm (pySort tripleLe2 data) :=
    (pySort_perm _ _).trans (pySort_perm _ _).symm
  refine eq_of_perm_pairwise hperm ?_
    (pySort_pairwise tripleLe2_total tripleLe2_trans _) ?_
  · have h3 := pySort_pairwise tripleLe_total tripleLe_trans data
    have hnd3 : (pySort tripleLe data).Pairwise (· ≠ ·) :=
      ((pySort_perm tripleLe data).nodup_iff).mpr hdnd
    refine pairwise_mem_imp (h3.and hnd3) ?_
    intro x hx y hy hxy
    exact tripleLe_to_tripleLe2
      (hsnd x (mem_pySort.mp hx) y (mem_pySort.mp hy) hxy.2) hxy.1
  · intro x hx y hy h1 h2
    have hkeys := keyLe_antisymm h1 h2
    have hx2 : x.2.1 = y.2.1 := congrArg Prod.snd hkeys
    by_contra hne
    exact hsnd x (mem_pySort.mp hx) y (mem_pySort.mp hy) hne hx2

theorem freq_enc_sort_ignores_token_witness :
    ∃ data, char_rank_data (pySplit ("150 273 150 14 273 150" : String).data) = some data ∧
      pySort tripleLe data = pySort tripleLe2 data ∧
      ∀ x ∈ data, ∀ y ∈ data, x ≠ y → x.2.1 ≠ y.2.1 :=
  ⟨(-3, 0, ['1', '5', '0']) :: (-2, 1, ['2', '7', '3']) :: [(-1, 3, ['1', '4'])],
    by decide,
    freq_enc_sort_ignores_token "150 273 150 14 273 150" _ (by decide)⟩

/-- C4. With `k` distinct tokens, the rank values in `freq_enc`'s output are
exactly `{0, …, k−1}`; each rank occurs as often as its source token, and
the rank table maps the distinct tokens bijectively onto `[0, k)` (its keys
are a permutation of the distinct tokens, its values are `range k`). -/
theorem freq_enc_rank_bijection (text : String)
    (hne : pySplit text.data ≠ []) :
    ∃ table ranks,
      char_to_rank_id (pySplit text.data) = some table ∧
      encoded_ranks text = some ranks ∧
      freq_enc text = some (String.mk (joinSep [' '] (ranks.map natToTok))) ∧
      (∀ r, r ∈ ranks ↔ r < (distinctFirst (pySplit text.data)).length) ∧
      (∀ t r, (t, r) ∈ table → countTok r ranks = countTok t (pySplit text.data)) ∧
      (table.map Prod.fst).Perm (distinctFirst (pySplit text.data)) ∧
      table.map Prod.snd = List.range (distinctFirst (pySplit text.data)).length := by
  have hfalse : (pySplit text.data).isEmpty = false := by
    cases hb : (pySplit text.data).isEmpty
    · rfl
    · exact absurd (List.isEmpty_iff.mp hb) hne
  have hRD : (rankedTokens (pySplit text.data)).length =
      (distinctFirst (pySplit text.data)).length :=
    (rankedTokens_perm (pySplit text.data)).length_eq
  refine ⟨rankTable (pySplit text.data),
    (pySplit text.data).map (fun t => rankOf (pySplit text.data) t),
    char_to_rank_id_eq _, encoded_ranks_eq text, ?_, ?_, ?_, ?_, ?_⟩
  · rw [freq_enc_eq_spec, encode_spec]
    simp only [hfalse, Bool.false_eq_true, if_false, List.map_map]
    rfl
  · intro r
    constructor
    · intro hr
      obtain ⟨t, ht, rfl⟩ := List.mem_map.mp hr
      have : rankOf (pySplit text.data) t < (rankedTokens (pySplit text.data)).length :=
        firstIdx_lt_length (mem_rankedTokens.mpr ht)
      omega
    · intro hr
      have hr' : r < (rankedTokens (pySplit text.data)).length := by omega
      obtain ⟨u, hu⟩ := Option.isSome_iff_exists.mp ((getAt?_isSome _ r).mpr hr')
      refine List.mem_map.mpr ⟨u, mem_rankedTokens.mp (getAt?_mem hu), ?_⟩
      exact rankOf_eq_of_getAt? hu
  · intro t r hmem
    have hg : getAt? (rankedTokens (pySplit text.data)) r = some t := mem_rankTable.mp hmem
    refine countTok_map ?_
    intro u hu
    constructor
    · intro hgu
      have := getAt?_firstIdx (mem_rankedTokens.mpr hu)
      rw [show firstIdx u (rankedTokens (pySplit text.data)) =
        rankOf (pySplit text.data) u from rfl, hgu, hg] at this
      simpa using this.symm
    · rintro rfl
      exact rankOf_eq_of_getAt? hg
  · rw [rankTable_map_fst]
    exact rankedTokens_perm _
  · calc (rankTable (pySplit text.data)).map Prod.snd
        = (enumFrom 0 (rankedTokens (pySplit text.data))).map Prod.fst := by
          rw [rankTable, List.map_map]
          rfl
      _ = List.range' 0 (rankedTokens (pySplit text.data)).length :=
          enumFrom_map_fst _ 0
      _ = List.range (rankedTokens (pySplit text.data)).length :=
          (List.range_eq_range' _).symm
      _ = List.range (distinctFirst (pySplit text.data)).length := by rw [hRD]

theorem freq_enc_rank_bijection_witness :
    pySplit ("150 273 150 14 273 150" : String).data ≠ [] ∧
    ∃ table ranks,
      char_to_rank_id (pySplit ("150 273 150 14 273 150" : String).data) = some table ∧
      encoded_ranks "150 273 150 14 273 150" = some ranks ∧
      freq_enc "150 273 150 14 273 150" =
        some (String.mk (joinSep [' '] (ranks.map natToTok))) ∧
      (∀ r, r ∈ ranks ↔
        r < (distinctFirst (pySplit ("150 273 150 14 273 150" : String).data)).length) ∧
      (∀ t r, (t, r) ∈ table → countTok r ranks =
        countTok t (pySplit ("150 273 150 14 273 150" : String).data)) ∧
      (table.map Prod.fst).Perm
        (distinctFirst (pySplit ("150 273 150 14 273 150" : String).data)) ∧
      table.map Prod.snd =
        List.range (distinctFirst (pySplit ("150 273 150 14 273 150" : String).data)).length :=
  ⟨by decide, freq_enc_rank_bijection "150 273 150 14 273 150" (by decide)⟩

/-- C5. The output of `freq_enc` has exactly as many whitespace-separated
tokens as the input, in the original order: the i-th output integer is the
rank table's entry for the i-th input token. -/
theorem freq_enc_length_and_order (text : String) :
    ∃ table ranks out,
      char_to_rank_id (pySplit text.data) = some table ∧
      encoded_ranks text = some ranks ∧
      freq_enc text = some out ∧
      pySplit out.data = ranks.map natToTok ∧
      (pySplit out.data).length = (pySplit text.data).length ∧
      ranks.length = (pySplit text.data).length ∧
      (∀ i, getAt? ranks i =
        (getAt? (pySplit text.data) i).bind fun a => List.lookup a table) := by
  have hsplit : pySplit (encode_spec text).data =
      ((pySplit text.data).map (fun t => rankOf (pySplit text.data) t)).map natToTok := by
    by_cases he : (pySplit text.data).isEmpty
    · have hnil : pySplit text.data = [] := List.isEmpty_iff.mp he
      rw [encode_spec]
      simp only [he, ite_true, hnil, List.map_nil]
      rfl
    · have hfalse : (pySplit text.data).isEmpty = false := by
        cases hb : (pySplit text.data).isEmpty
        · rfl
        · exact absurd hb he
      rw [encode_spec]
      simp only [hfalse, Bool.false_eq_true, if_false]
      rw [pySplit_joinSep]
      · rw [List.map_map]
        rfl
      · intro p hp
        obtain ⟨t, _, rfl⟩ := List.mem_map.mp hp
        exact ⟨natToTok_ne_nil _, fun c hc => natToTok_not_space hc⟩
  refine ⟨rankTable (pySplit text.data),
    (pySplit text.data).map (fun t => rankOf (pySplit text.data) t),
    encode_spec text, char_to_rank_id_eq _, encoded_ranks_eq text, freq_enc_eq_spec text,
    hsplit, ?_, ?_, ?_⟩
  · rw [hsplit, List.length_map, List.length_map]
  · rw [List.length_map]
  · intro i
    rw [getAt?_map]
    cases hti : getAt? (pySplit text.data) i
    · rfl
    · rename_i a
      rw [Option.map_some', Option.some_bind, rankTable_lookup (getAt?_mem hti)]

/-! ## Idempotence (claim C10) -/

theorem encode_spec_eq_of_ne (text : String)
    (hfalse : (pySplit text.data).isEmpty = false) :
    encode_spec text = String.mk (joinSep [' ']
      ((pySplit text.data).map fun t => natToTok (rankOf (pySplit text.data) t))) := by
  rw [encode_spec]
  simp only [hfalse, Bool.false_eq_true, if_false]

theorem encode_spec_split (text : String) :
    pySplit (encode_spec text).data =
      (pySplit text.data).map fun t => natToTok (rankOf (pySplit text.data) t) := by
  by_cases he : (pySplit text.data).isEmpty
  · have hnil : pySplit text.data = [] := List.isEmpty_iff.mp he
    rw [encode_spec]
    simp only [he, ite_true, hnil, List.map_nil]
    rfl
  · have hfalse : (pySplit text.data).isEmpty = false := by
      cases hb : (pySplit text.data).isEmpty
      · rfl
      · exact absurd hb he
    rw [encode_spec_eq_of_ne text hfalse]
    show pySplit (joinSep [' ']
      ((pySplit text.data).map fun t => natToTok (rankOf (pySplit text.data) t))) = _
    rw [pySplit_joinSep]
    intro p hp
    obtain ⟨t, _, rfl⟩ := List.mem_map.mp hp
    exact ⟨natToTok_ne_nil _, fun c hc => natToTok_not_space hc⟩

/-- Rendering the rank to decimal is injective on the tokens of the list. -/
theorem rankRender_inj (tokens : List Tok) :
    ∀ u ∈ tokens, ∀ v ∈ tokens,
      natToTok (rankOf tokens u) = natToTok (rankOf tokens v) → u = v := by
  intro u hu v hv h
  exact firstIdx_inj (mem_rankedTokens.mpr hu) (mem_rankedTokens.mpr hv) (natToTok_inj h)

theorem mapped_count (tokens : List Tok) {t : Tok} (ht : t ∈ tokens) :
    countTok (natToTok (rankOf tokens t))
        (tokens.map fun u => natToTok (rankOf tokens u)) =
      countTok t tokens := by
  refine countTok_map ?_
  intro u hu
  exact ⟨fun h => rankRender_inj tokens u hu t ht h, fun h => by rw [h]⟩

theorem mapped_firstIdx (tokens : List Tok) {t : Tok} (ht : t ∈ tokens) :
    firstIdx (natToTok (rankOf tokens t))
        (tokens.map fun u => natToTok (rankOf tokens u)) =
      firstIdx t tokens := by
  refine firstIdx_map ?_
  intro u hu
  exact ⟨fun h => rankRender_inj tokens u hu t ht h, fun h => by rw [h]⟩

theorem mapped_tokKey (tokens : List Tok) {t : Tok} (ht : t ∈ tokens) :
    tokKey (tokens.map fun u => natToTok (rankOf tokens u))
        (natToTok (rankOf tokens t)) = tokKey tokens t := by
  rw [tokKey, tokKey, mapped_count tokens ht, mapped_firstIdx tokens ht]

theorem mapped_specLe (tokens : List Tok) {t u : Tok} (ht : t ∈ tokens) (hu : u ∈ tokens) :
    specLe (tokens.map fun v => natToTok (rankOf tokens v))
        (natToTok (rankOf tokens t)) (natToTok (rankOf tokens u)) =
      specLe tokens t u := by
  rw [specLe, specLe, mapped_tokKey tokens ht, mapped_tokKey tokens hu]

theorem mapped_distinctFirst (tokens : List Tok) :
    distinctFirst (tokens.map fun u => natToTok (rankOf tokens u)) =
      (distinctFirst tokens).map fun u => natToTok (rankOf tokens u) := by
  rw [distinctFirst, distinctFirst]
  have h := @dedupFirst_map Tok Tok _ _
    (fun u => natToTok (rankOf tokens u)) tokens []
    (by
      intro u hu v hv hg
      simp only [List.nil_append] at hu hv
      exact rankRender_inj tokens u hu v hv hg)
  simpa using h

theorem mapped_rankedTokens (tokens : List Tok) :
    rankedTokens (tokens.map fun u => natToTok (rankOf tokens u)) =
      (rankedTokens tokens).map fun u => natToTok (rankOf tokens u) := by
  have hperm : (rankedTokens (tokens.map fun u => natToTok (rankOf tokens u))).Perm
      ((rankedTokens tokens).map fun u => natToTok (rankOf tokens u)) := by
    refine (rankedTokens_perm _).trans ?_
    rw [mapped_distinctFirst]
    exact ((rankedTokens_perm tokens).map _).symm
  refine eq_of_perm_pairwise hperm (rankedTokens_sorted _) ?_ ?_
  · rw [List.pairwise_map]
    refine pairwise_mem_imp (rankedTokens_sorted tokens) ?_
    intro a hma b hmb hab
    rw [mapped_specLe tokens (mem_rankedTokens.mp hma) (mem_rankedTokens.mp hmb)]
    exact hab
  · intro x hx y hy h1 h2
    have hx' : x ∈ tokens.map fun u => natToTok (rankOf tokens u) :=
      mem_rankedTokens.mp hx
    have hy' : y ∈ tokens.map fun u => natToTok (rankOf tokens u) :=
      mem_rankedTokens.mp hy
    obtain ⟨a, ha, rfl⟩ := List.mem_map.mp hx'
    obtain ⟨b, hb, rfl⟩ := List.mem_map.mp hy'
    rw [mapped_specLe tokens ha hb] at h1
    rw [mapped_specLe tokens hb ha] at h2
    have hkey := keyLe_antisymm h1 h2
    have : a = b := firstIdx_inj ha hb (congrArg Prod.snd hkey)
    rw [this]

theorem mapped_rankOf (tokens : List Tok) {t : Tok} (ht : t ∈ tokens) :
    rankOf (tokens.map fun u => natToTok (rankOf tokens u))
        (natToTok (rankOf tokens t)) = rankOf tokens t := by
  rw [rankOf, mapped_rankedTokens]
  refine firstIdx_map ?_
  intro u hu
  have hu' : u ∈ tokens := mem_rankedTokens.mp hu
  exact ⟨fun h => rankRender_inj tokens u hu' t ht h, fun h => by rw [h]⟩

theorem encode_spec_idem (text : String) :
    encode_spec (encode_spec text) = encode_spec text := by
  by_cases he : (pySplit text.data).isEmpty
  · have h1 : encode_spec text = "" := by
      rw [encode_spec]
      simp [he]
    rw [h1]
    rfl
  · have hfalse : (pySplit text.data).isEmpty = false := by
      cases hb : (pySplit text.data).isEmpty
      · rfl
      · exact absurd hb he
    have hTne : pySplit text.data ≠ [] := by
      intro h
      rw [h] at hfalse
      simp at hfalse
    have hsplit := encode_spec_split text
    have hOTne : (pySplit (encode_spec text).data).isEmpty = false := by
      rw [hsplit]
      cases hT : pySplit text.data
      · exact absurd hT hTne
      · rfl
    rw [encode_spec_eq_of_ne (encode_spec text) hOTne, hsplit, List.map_map,
      encode_spec_eq_of_ne text hfalse]
    congr 1
    congr 1
    refine List.map_congr_left ?_
    intro t ht
    show natToTok (rankOf
      ((pySplit text.data).map fun u => natToTok (rankOf (pySplit text.data) u))
      (natToTok (rankOf (pySplit text.data) t))) = natToTok (rankOf (pySplit text.data) t)
    rw [mapped_rankOf (pySplit text.data) ht]

/-- C10. `freq_enc` is idempotent: re-encoding the encoded output returns
it unchanged, because every rank id occurs in the output with the same
count and the same first-occurrence index as the token it replaced. -/
theorem freq_enc_idempotent (s : String) : (freq_enc s).bind freq_enc = freq_enc s := by
  rw [freq_enc_eq_spec s, Option.some_bind, freq_enc_eq_spec (encode_spec s),
    encode_spec_idem]

/-! ## Pipeline lemmas (claims C8, C9) -/

theorem spacedPlain_error {v : JValue} {e : PyError}
    (h : spacedPlain v = Except.error e) : e = PyError.typeError := by
  cases v with
  | obj fields => simp [spacedPlain] at h
  | str s => simp [spacedPlain] at h
  | arr elems =>
    rw [spacedPlain] at h
    cases hm : mapO (fun e => match e with
        | JValue.str t => some t.data
        | _ => none) elems with
    | none =>
      rw [hm] at h
      simp only [Option.elim] at h
      exact (Except.error.injEq _ _ |>.mp h).symm
    | some parts =>
      rw [hm] at h
      simp [Option.elim] at h
  | num n =>
    have h' : (Except.error PyError.typeError : Except PyError String) = Except.error e := h
    injection h' with h2
    exact h2.symm
  | bool b =>
    have h' : (Except.error PyError.typeError : Except PyError String) = Except.error e := h
    injection h' with h2
    exact h2.symm
  | null =>
    have h' : (Except.error PyError.typeError : Except PyError String) = Except.error e := h
    injection h' with h2
    exact h2.symm

/-- Shape analysis of one loop iteration: it either writes exactly one line
to each file and raises nothing, or writes nothing and raises, or — only
for an uncaught error — writes the source line alone and raises. -/
theorem processRecord_shapes (f : FileContent) :
    (∃ s t, processRecord f = ⟨[s], [t], none⟩) ∨
    (∃ e, processRecord f = ⟨[], [], some e⟩) ∨
    (∃ s, processRecord f = ⟨[s], [], some PyError.typeError⟩) := by
  cases f with
  | none => exact Or.inr (Or.inl ⟨PyError.jsonDecodeError, rfl⟩)
  | some data =>
    cases hgc : getItem data "ciphertext" with
    | error e =>
      refine Or.inr (Or.inl ⟨e, ?_⟩)
      simp [processRecord, hgc]
    | ok cval =>
      cases hgp : getItem data "plaintext" with
      | error e =>
        refine Or.inr (Or.inl ⟨e, ?_⟩)
        simp [processRecord, hgc, hgp]
      | ok pval =>
        cases hstr : asPyStr cval with
        | error e =>
          refine Or.inr (Or.inl ⟨e, ?_⟩)
          simp [processRecord, hgc, hgp, hstr]
        | ok ctext =>
          cases hfe : freq_enc ctext with
          | none =>
            refine Or.inr (Or.inl ⟨PyError.keyError, ?_⟩)
            simp [processRecord, hgc, hgp, hstr, hfe]
          | some fe =>
            cases hsp : spacedPlain pval with
            | error e =>
              refine Or.inr (Or.inr ⟨fe, ?_⟩)
              have he : e = PyError.typeError := spacedPlain_error hsp
              subst he
              simp [processRecord, hgc, hgp, hstr, hfe, hsp]
            | ok sp =>
              refine Or.inl ⟨fe, sp, ?_⟩
              simp [processRecord, hgc, hgp, hstr, hfe, hsp]

theorem processRecord_caught_no_writes {f : FileContent} {e : PyError}
    (h : (processRecord f).err = some e) (hc : caughtErr e = true) :
    processRecord f = ⟨[], [], some e⟩ := by
  rcases processRecord_shapes f with ⟨s, t, hs⟩ | ⟨e', hs⟩ | ⟨s, hs⟩
  · rw [hs] at h
    simp at h
  · have he : e' = e := by
      rw [hs] at h
      simpa using h
    rw [hs, he]
  · have he : PyError.typeError = e := by
      rw [hs] at h
      simpa using h
    rw [← he] at hc
    simp [caughtErr] at hc

theorem processRecord_benign {f : FileContent} (hf : Benign f) :
    (∃ s t, processRecord f = ⟨[s], [t], none⟩) ∨
    (∃ e, caughtErr e = true ∧ processRecord f = ⟨[], [], some e⟩) := by
  rcases hf with rfl | ⟨fields, rfl, hc, hp⟩
  · exact Or.inr ⟨PyError.jsonDecodeError, rfl, rfl⟩
  · cases hlc : fields.lookup "ciphertext" with
    | none =>
      refine Or.inr ⟨PyError.keyError, rfl, ?_⟩
      simp [processRecord, getItem, hlc]
    | some v =>
      obtain ⟨s, rfl⟩ := hc v hlc
      cases hlp : fields.lookup "plaintext" with
      | none =>
        refine Or.inr ⟨PyError.keyError, rfl, ?_⟩
        simp [processRecord, getItem, hlc, hlp]
      | some w =>
        obtain ⟨sp, rfl⟩ := hp w hlp
        obtain ⟨out, hout⟩ := Option.isSome_iff_exists.mp (freq_enc_total s).1
        refine Or.inl ⟨out, String.mk (joinSep [' '] (sp.data.map fun c => [c])), ?_⟩
        simp [processRecord, getItem, hlc, hlp, asPyStr, hout, spacedPlain]

theorem waf_cons_ok {f : FileContent} {rest : List FileContent} {s t : String}
    (heq : processRecord f = ⟨[s], [t], none⟩) :
    write_aggregated_files (f :: rest) =
      ⟨s :: (write_aggregated_files rest).srcLines,
       t :: (write_aggregated_files rest).tgtLines,
       (write_aggregated_files rest).warnings,
       (write_aggregated_files rest).aborted⟩ := by
  simp [write_aggregated_files, heq]

theorem waf_cons_caught {f : FileContent} {rest : List FileContent} {e : PyError}
    (heq : processRecord f = ⟨[], [], some e⟩) (hc : caughtErr e = true) :
    write_aggregated_files (f :: rest) =
      ⟨(write_aggregated_files rest).srcLines,
       (write_aggregated_files rest).tgtLines,
       e :: (write_aggregated_files rest).warnings,
       (write_aggregated_files rest).aborted⟩ := by
  simp [write_aggregated_files, heq, hc]

theorem waf_cons_uncaught {f : FileContent} {rest : List FileContent} {e : PyError}
    (heq : (processRecord f).err = some e) (hc : caughtErr e = false) :
    write_aggregated_files (f :: rest) =
      ⟨(processRecord f).srcW, (processRecord f).tgtW, [], some e⟩ := by
  simp [write_aggregated_files, heq, hc]

/-- A record of one of the two kinds C9 names is skipped with nothing
written and exactly one warning. -/
theorem processRecord_badkind {f : FileContent} (hbk : BadKind f) :
    ∃ e, caughtErr e = true ∧ processRecord f = ⟨[], [], some e⟩ ∧
      write_aggregated_files [f] = ⟨[], [], [e], none⟩ := by
  rcases hbk with rfl | ⟨fields, rfl, hcase⟩
  · exact ⟨PyError.jsonDecodeError, rfl, rfl, rfl⟩
  · have hpr : processRecord (some (JValue.obj fields)) =
        ⟨[], [], some PyError.keyError⟩ := by
      rcases hcase with hc | hp
      · simp [processRecord, getItem, hc]
      · cases hcv : fields.lookup "ciphertext" with
        | none => simp [processRecord, getItem, hcv]
        | some v => simp [processRecord, getItem, hcv, hp]
    exact ⟨PyError.keyError, rfl, hpr, by simp [write_aggregated_files, hpr, caughtErr]⟩

/-- C9. Records whose file is unparseable or whose parsed object lacks
`ciphertext` or `plaintext` are skipped atomically — nothing is written to
either output for them, only one diagnostic is emitted — and wherever both
a k-th `.src` line and a k-th `.tgt` line exist they come from the k-th
successfully processed record: the `.tgt` lines are exactly the writes of
the good records in order, the `.src` lines agree with the good records'
writes up to that length, and at most one trailing `.src` line (from an
uncaught mid-record failure) can exist beyond it. -/
theorem write_aggregated_files_atomic_skip (files : List FileContent) :
    (∀ f ∈ files, BadKind f → ∃ e, caughtErr e = true ∧
      processRecord f = ⟨[], [], some e⟩ ∧
      write_aggregated_files [f] = ⟨[], [], [e], none⟩) ∧
    ∃ goods : List FileContent, goods.Sublist files ∧
      (∀ g ∈ goods, ∃ s t, processRecord g = ⟨[s], [t], none⟩) ∧
      (write_aggregated_files files).tgtLines =
        (goods.map fun g => (processRecord g).tgtW).flatten ∧
      (write_aggregated_files files).srcLines.take goods.length =
        (goods.map fun g => (processRecord g).srcW).flatten ∧
      (write_aggregated_files files).srcLines.length ≤ goods.length + 1 ∧
      (write_aggregated_files files).tgtLines.length = goods.length := by
  refine ⟨fun f _ hbk => processRecord_badkind hbk, ?_⟩
  induction files with
  | nil =>
    exact ⟨[], List.nil_sublist _, by simp, rfl, rfl, by decide, rfl⟩
  | cons f rest ih =>
    obtain ⟨goods, hsub, hok, htgt, hsrc, hlen, htlen⟩ := ih
    rcases processRecord_shapes f with ⟨s, t, heq⟩ | ⟨e, heq⟩ | ⟨s, heq⟩
    · refine ⟨f :: goods, hsub.cons₂ f, ?_, ?_, ?_, ?_, ?_⟩
      · intro g hg
        rcases List.mem_cons.mp hg with rfl | hg'
        · exact ⟨s, t, heq⟩
        · exact hok g hg'
      · rw [waf_cons_ok heq]
        simp only [List.map_cons, List.flatten, heq]
        rw [htgt]
        rfl
      · rw [waf_cons_ok heq]
        simp only [List.map_cons, List.flatten, heq, List.length_cons, List.take_succ_cons]
        rw [hsrc]
        rfl
      · rw [waf_cons_ok heq]
        simp only [List.length_cons]
        omega
      · rw [waf_cons_ok heq]
        simp only [List.length_cons, List.length_cons, htlen]
    · by_cases hc : caughtErr e = true
      · rw [waf_cons_caught heq hc]
        exact ⟨goods, hsub.cons f, hok, htgt, hsrc, hlen, htlen⟩
      · have hcf : caughtErr e = false := by
          cases h : caughtErr e
          · rfl
          · exact absurd h hc
        rw [waf_cons_uncaught (by rw [heq]) hcf]
        refine ⟨[], List.nil_sublist _, by simp, ?_, rfl, ?_, ?_⟩
        · simp [heq]
        · simp [heq]
        · simp [heq]
    · have hcf : caughtErr PyError.typeError = false := rfl
      rw [waf_cons_uncaught (by rw [heq]) hcf]
      refine ⟨[], List.nil_sublist _, by simp, ?_, rfl, ?_, ?_⟩
      · simp [heq]
      · simp [heq]
      · simp [heq]

theorem write_aggregated_files_atomic_skip_witness :
    ∃ e, caughtErr e = true ∧
      processRecord (none : FileContent) = ⟨[], [], some e⟩ ∧
      write_aggregated_files [(none : FileContent)] = ⟨[], [], [e], none⟩ :=
  (write_aggregated_files_atomic_skip [none]).1 none (List.mem_cons_self _ _) (Or.inl rfl)

/-- Counterexample to C8 as stated: a record whose file parses to a JSON
array (valid JSON, but not an object) raises an uncaught `TypeError` when
subscripted, which aborts `write_aggregated_files` — the following
well-formed record is never processed, although on its own it would
produce a line. -/
theorem write_aggregated_files_fatal_error_cex :
    (write_aggregated_files
      [some (JValue.arr []),
       some (JValue.obj [("ciphertext", JValue.str "a b a"),
         ("plaintext", JValue.str "xy")])]).aborted = some PyError.typeError ∧
    (write_aggregated_files
      [some (JValue.arr []),
       some (JValue.obj [("ciphertext", JValue.str "a b a"),
         ("plaintext", JValue.str "xy")])]).srcLines = [] ∧
    (write_aggregated_files
      [some (JValue.obj [("ciphertext", JValue.str "a b a"),
        ("plaintext", JValue.str "xy")])]).srcLines = ["0 1 0"] := by
  exact ⟨by decide, by decide, by decide⟩

/-- C8 (amended). Provided every record's file either fails to parse or
parses to a JSON object whose `ciphertext` and `plaintext` fields, when
present, are strings, no error arising from a bad record is fatal:
`write_aggregated_files` completes without raising, and every record is
accounted for by either an output line or a warning.  (Without that
proviso the claim fails: see the counterexample — errors other than
`JSONDecodeError` and `KeyError` are not caught.) -/
theorem write_aggregated_files_benign_no_abort (files : List FileContent)
    (hb : ∀ f ∈ files, Benign f) :
    (write_aggregated_files files).aborted = none ∧
    (write_aggregated_files files).srcLines.length +
      (write_aggregated_files files).warnings.length = files.length := by
  induction files with
  | nil => exact ⟨rfl, rfl⟩
  | cons f rest ih =>
    have hf := processRecord_benign (hb f (List.mem_cons_self f rest))
    have ihr := ih fun x hx => hb x (List.mem_cons_of_mem f hx)
    rcases hf with ⟨s, t, heq⟩ | ⟨e, hc, heq⟩
    · rw [waf_cons_ok heq]
      refine ⟨ihr.1, ?_⟩
      simp only [List.length_cons]
      omega
    · rw [waf_cons_caught heq hc]
      refine ⟨ihr.1, ?_⟩
      simp only [List.length_cons]
      omega

theorem write_aggregated_files_benign_no_abort_witness :
    (write_aggregated_files
      [none,
       some (JValue.obj [("ciphertext", JValue.str "a b a"),
         ("plaintext", JValue.str "xy")])]).aborted = none ∧
    (write_aggregated_files
      [none,
       some (JValue.obj [("ciphertext", JValue.str "a b a"),
         ("plaintext", JValue.str "xy")])]).srcLines.length +
      (write_aggregated_files
        [none,
         some (JValue.obj [("ciphertext", JValue.str "a b a"),
           ("plaintext", JValue.str "xy")])]).warnings.length = 2 := by
  refine write_aggregated_files_benign_no_abort _ ?_
  intro f hf
  rcases List.mem_cons.mp hf with rfl | hf2
  · exact Or.inl rfl
  · rcases List.mem_cons.mp hf2 with rfl | hf3
    · refine Or.inr ⟨_, rfl, ?_, ?_⟩
      · intro v hv
        have h2 : (some (JValue.str "a b a") : Option JValue) = some v := hv
        injection h2 with h3
        exact ⟨"a b a", h3.symm⟩
      · intro v hv
        have h2 : (some (JValue.str "xy") : Option JValue) = some v := hv
        injection h2 with h3
        exact ⟨"xy", h3.symm⟩
    · simp at hf3
